import Mathlib

/-!
Shallow embedding of the restaurant entity-resolution scripts
(merge_restaurant_lists.py, merge_place_ids.py, deduplicate_restaurants.py).

Conventions:
* Python strings are modelled as lists of characters (Str); the scripts only
  process ASCII text, so character classes (lowercasing, regex \w and \s) are
  modelled over ASCII.
* A Python dict entry is modelled by the three-state type Fld: the key can be
  missing, present with value None, or present with a value.
* Code that can raise (TypeError on 100 + None, AttributeError on
  None.lower(), KeyError on a missing longitude) is modelled in Except.
-/

abbrev Str := List Char

instance {ε α : Type} [DecidableEq ε] [DecidableEq α] : DecidableEq (Except ε α) := fun a b =>
  match a, b with
  | .ok x, .ok y => if h : x = y then .isTrue (by rw [h]) else .isFalse (by simp [h])
  | .error x, .error y => if h : x = y then .isTrue (by rw [h]) else .isFalse (by simp [h])
  | .ok _, .error _ => .isFalse (by simp)
  | .error _, .ok _ => .isFalse (by simp)

/-- Three-state value of a Python dict entry: the key may be missing
(absent), present with value None (null), or present with a value. -/
inductive Fld (α : Type) where
  | absent : Fld α
  | null : Fld α
  | val : α → Fld α
deriving DecidableEq, Repr

/-- r.get(key, default): a missing key gives the default, a key holding
None gives None, otherwise the stored value. -/
def Fld.getPy {α : Type} (f : Fld α) (d : Option α) : Option α :=
  match f with
  | .absent => d
  | .null => none
  | .val a => some a

/-- Assigning a Python value (possibly None) into a dict entry. -/
def Fld.ofPy {α : Type} (o : Option α) : Fld α :=
  match o with
  | none => .null
  | some a => .val a

/-- Python truthiness of a string-or-None value: None and the empty string
are falsy. -/
def truthyStr (o : Option Str) : Bool :=
  match o with
  | some s => !s.isEmpty
  | none => false

/-- Python truthiness of an int-or-None value: None and 0 are falsy. -/
def truthyInt (o : Option Int) : Bool :=
  match o with
  | some n => n != 0
  | none => false

/-- Python truthiness of a float-or-None value (floats modelled as ℚ):
None and 0.0 are falsy. -/
def truthyQ (o : Option ℚ) : Bool :=
  match o with
  | some q => q != 0
  | none => false

/-- Python truthiness of a bool-or-None value. -/
def truthyB (o : Option Bool) : Bool :=
  match o with
  | some b => b
  | none => false

/-- Python truthiness of a list-or-None value: None and the empty list are
falsy. -/
def truthyList (o : Option (List Str)) : Bool :=
  match o with
  | some l => !l.isEmpty
  | none => false

/-- Python str.lower restricted to ASCII letters (the pipeline processes
ASCII text). -/
def lowerChar (c : Char) : Char :=
  match c with
  | 'A' => 'a' | 'B' => 'b' | 'C' => 'c' | 'D' => 'd' | 'E' => 'e' | 'F' => 'f'
  | 'G' => 'g' | 'H' => 'h' | 'I' => 'i' | 'J' => 'j' | 'K' => 'k' | 'L' => 'l'
  | 'M' => 'm' | 'N' => 'n' | 'O' => 'o' | 'P' => 'p' | 'Q' => 'q' | 'R' => 'r'
  | 'S' => 's' | 'T' => 't' | 'U' => 'u' | 'V' => 'v' | 'W' => 'w' | 'X' => 'x'
  | 'Y' => 'y' | 'Z' => 'z'
  | c => c

/-- Python regex \s over ASCII: space, tab, newline, carriage return,
vertical tab, form feed. -/
def isSpaceChar (c : Char) : Bool :=
  c == ' ' || c == '\t' || c == '\n' || c == '\r' || c == '\x0b' || c == '\x0c'

/-- Python regex \w over ASCII: letters, digits, underscore. -/
def isWordChar (c : Char) : Bool := c.isAlphanum || c == '_'

/-- A character kept by re.sub(r'[^\w\s]', '', s). -/
def isWS (c : Char) : Bool := isWordChar c || isSpaceChar c

/-- Python str.strip(): drop leading and trailing whitespace. -/
def stripChars (l : Str) : Str :=
  ((l.dropWhile isSpaceChar).reverse.dropWhile isSpaceChar).reverse

/-- re.sub(r'\s+', ' ', s): replace each maximal whitespace run by one
space. -/
def collapseWS : Str → Str
  | [] => []
  | [c] => if isSpaceChar c then [' '] else [c]
  | c1 :: c2 :: rest =>
    if isSpaceChar c1 && isSpaceChar c2 then collapseWS (c2 :: rest)
    else (if isSpaceChar c1 then ' ' else c1) :: collapseWS (c2 :: rest)

/-- re.sub(r'[^\w\s]', '', s): keep only word characters and whitespace. -/
def keepWordSpace (l : Str) : Str := l.filter isWS

/-- normalize_name from merge_restaurant_lists.py (lines 13-23): falsy
input gives the empty string; otherwise lowercase, strip, delete
punctuation, collapse whitespace runs. -/
def normalize_name (name : Str) : Str :=
  if name.isEmpty then []
  else collapseWS (keepWordSpace (stripChars (name.map lowerChar)))

/-- Replacement of one maximal word-character run: the run is replaced by
rep when it equals pat, otherwise kept. -/
def substWordRun (pat rep run : Str) : Str :=
  if run = pat then rep else run

/-- Worker for substWord: acc holds the reversed word-character run read so
far. -/
def substWordAux (pat rep : Str) (acc : Str) : Str → Str
  | [] => if acc.isEmpty then [] else substWordRun pat rep acc.reverse
  | c :: rest =>
    if isWordChar c then substWordAux pat rep (c :: acc) rest
    else
      (if acc.isEmpty then [] else substWordRun pat rep acc.reverse)
        ++ c :: substWordAux pat rep [] rest

/-- re.sub for a pattern \bword\b whose word consists of word characters
only, applied to the punctuation-free text this pipeline feeds it: replace
each maximal word-character run equal to pat by rep. -/
def substWord (pat rep : Str) (l : Str) : Str := substWordAux pat rep [] l

/-- The six suffix substitutions of normalize_address, in source order. -/
def streetAbbrevs : List (Str × Str) :=
  [("street".toList, "st".toList), ("avenue".toList, "ave".toList),
   ("boulevard".toList, "blvd".toList), ("place".toList, "pl".toList),
   ("road".toList, "rd".toList), ("drive".toList, "dr".toList)]

def applyAbbrevs (l : Str) : Str :=
  streetAbbrevs.foldl (fun acc pr => substWord pr.1 pr.2 acc) l

/-- normalize_address from merge_restaurant_lists.py (lines 26-43): falsy
input gives the empty string; otherwise lowercase, strip, abbreviate the
six suffix words, delete punctuation, collapse whitespace runs. -/
def normalize_address (address : Str) : Str :=
  if address.isEmpty then []
  else collapseWS (keepWordSpace (applyAbbrevs (stripChars (address.map lowerChar))))

/-- Python str.replace applied to the single-character pattern "&" with
replacement "and". -/
def replaceAmp : Str → Str
  | [] => []
  | c :: rest => (if c == '&' then 'a' :: 'n' :: 'd' :: [] else [c]) ++ replaceAmp rest

/-- Python " ".join(s.split()): split on whitespace runs, dropping edge
whitespace, and re-join the pieces with single spaces. -/
def splitJoin (l : Str) : Str := collapseWS (stripChars l)

namespace MPID

/-- normalize_name from merge_place_ids.py (lines 12-23). The lowercased
and stripped text of line 16 and the apostrophe substitutions of line 17
are bound to a variable that line 18 immediately overwrites with a fresh
computation on the original name, so neither survives into the return
value (line 17 moreover substitutes a straight apostrophe by itself). What
remains is: expand the ampersand, delete periods and commas, split and
re-join whitespace. -/
def normalize_name (name : Str) : Str :=
  if name.isEmpty then []
  else splitJoin ((replaceAmp name).filter (fun c => c != '.' && c != ','))

end MPID

/-- A restaurant record (the flat JSON mapping of the pipeline). Every
optional dict entry is a Fld; sources is always read through
.get('sources', []) in the scripts, which cannot distinguish a missing key
from an empty list, so it is modelled as a plain list. Floats are modelled
as rationals (the scripts only compare them, never compute with them). -/
structure Rec where
  name : Fld Str := .absent
  description : Fld Str := .absent
  formatted_address : Fld Str := .absent
  address : Fld Str := .absent
  website : Fld Str := .absent
  phone : Fld Str := .absent
  google_maps_url : Fld Str := .absent
  cuisine : Fld Str := .absent
  price_range : Fld Str := .absent
  image_url : Fld Str := .absent
  place_id : Fld Str := .absent
  last_updated : Fld Str := .absent
  sources : List Str := []
  rank : Fld Int := .absent
  nyt_rank : Fld Int := .absent
  nym_rank : Fld Int := .absent
  review_count : Fld Int := .absent
  google_review_count : Fld Int := .absent
  combined_order : Fld Int := .absent
  rating : Fld ℚ := .absent
  google_rating : Fld ℚ := .absent
  latitude : Fld ℚ := .absent
  longitude : Fld ℚ := .absent
  opening_hours : Fld (List Str) := .absent
  is_open_now : Fld Bool := .absent
deriving DecidableEq, Repr

/-- The empty dict. -/
def Rec.empty : Rec := {}

/-- Truthiness of a string dict entry read with .get(key). -/
def Fld.tS (f : Fld Str) : Bool := truthyStr (f.getPy none)

/-- Truthiness of an int dict entry read with .get(key). -/
def Fld.tI (f : Fld Int) : Bool := truthyInt (f.getPy none)

/-- Truthiness of a float dict entry read with .get(key). -/
def Fld.tQ (f : Fld ℚ) : Bool := truthyQ (f.getPy none)

/-- Truthiness of a list dict entry read with .get(key). -/
def Fld.tL (f : Fld (List Str)) : Bool := truthyList (f.getPy none)

/-- The stored value of an entry known to hold one, with a default for the
other states. -/
def Fld.valD {α : Type} (f : Fld α) (d : α) : α :=
  match f with
  | .val a => a
  | _ => d

/-- r.get(key, '') fed into a normalizer: the normalizers turn both None
and the empty string into the empty key, so both collapse to []. -/
def strOrEmpty (f : Fld Str) : Str :=
  match f.getPy (some []) with
  | some s => s
  | none => []

/-- Python substring containment (a in b) for strings: contiguous
occurrence; the empty string is contained in everything. -/
def isSubstring (needle : Str) : Str → Bool
  | [] => needle.isEmpty
  | c :: rest => needle.isPrefixOf (c :: rest) || isSubstring needle rest

/-- Lexicographic < on strings by character code (Python str comparison
over ASCII). -/
def strLt : Str → Str → Bool
  | [], [] => false
  | [], _ :: _ => true
  | _ :: _, [] => false
  | a :: as, b :: bs => if a < b then true else if b < a then false else strLt as bs

/-- The ≤ relation sorted() uses on strings. -/
def strLe (a b : Str) : Prop := strLt b a = false

instance : DecidableRel strLe := fun a b => decEq (strLt b a) false

/-- First-occurrence deduplication, worker: seen collects emitted keys. -/
def uniqKeysAux (seen : List Str) : List Str → List Str
  | [] => []
  | k :: rest =>
    if k ∈ seen then uniqKeysAux seen rest
    else k :: uniqKeysAux (k :: seen) rest

/-- Distinct keys in first-occurrence order (the iteration order of the
keys of a Python dict built by insertion, and the element set of a Python
set). -/
def uniqKeys (l : List Str) : List Str := uniqKeysAux [] l

section Matcher

/-- re.search(r'(\d+)\s+([\w\s]+)', a), modelled on the normalized
(punctuation-free) addresses this script applies it to: the leftmost
maximal digit run followed by whitespace and at least one further
word-or-space character; group 1 is the digit run, group 2 the greedy
word-or-space tail (a lone trailing space when backtracking must surrender
the final space of the text to the second group). -/
def streetSearch : Str → Option (Str × Str)
  | [] => none
  | c :: rest =>
    if hd : c.isDigit then
      let after := (c :: rest).dropWhile Char.isDigit
      let sps := after.takeWhile isSpaceChar
      let rem := after.dropWhile isSpaceChar
      if sps.isEmpty then streetSearch after
      else if rem.isEmpty then
        if 2 ≤ sps.length then some ((c :: rest).takeWhile Char.isDigit, [' '])
        else none
      else some ((c :: rest).takeWhile Char.isDigit, rem.takeWhile isWS)
    else streetSearch rest
termination_by l => l.length
decreasing_by
  · simp only [List.dropWhile_cons, hd, if_true, List.length_cons]
    exact Nat.lt_succ_of_le ((List.dropWhile_sublist _).length_le)
  · simp

/-- Name-match test of find_matching_restaurant (lines 62-68): exact
equality or either-direction substring containment of the normalized
names. -/
def nameMatches (nymN nytN : Str) : Bool :=
  nymN == nytN || isSubstring nymN nytN || isSubstring nytN nymN

/-- Address-match test when both normalized addresses are nonempty (lines
75-88): equality, substring containment either way, or agreement of the
street number and the first 10 characters of the stripped street-name
group. -/
def addrBothMatch (nymA nytA : Str) : Bool :=
  nymA == nytA || isSubstring nymA nytA || isSubstring nytA nymA ||
  (match streetSearch nymA, streetSearch nytA with
   | some (n1, s1), some (n2, s2) =>
     n1 == n2 && (stripChars s1).take 10 == (stripChars s2).take 10
   | _, _ => false)

/-- Full address-match flag (lines 74-91): when either side is empty the
address vacuously matches. -/
def addressMatches (nymA nytA : Str) : Bool :=
  if !nymA.isEmpty && !nytA.isEmpty then addrBothMatch nymA nytA else true

/-- Name component of the candidate score (lines 95-98); evaluated only
for candidates whose name matched. -/
def nameScore (nymN nytN : Str) : Nat :=
  10 + (if nymN == nytN then 5 else 0)

/-- Address component of the candidate score (lines 99-102). -/
def addrScore (nymA nytA : Str) : Nat :=
  if addressMatches nymA nytA then 10 + (if nymA == nytA then 5 else 0) else 0

/-- Score of one considered candidate (lines 93-102). -/
def candScore (nymN nymA nytN nytA : Str) : Nat :=
  nameScore nymN nytN + addrScore nymA nytA

/-- Candidate loop of find_matching_restaurant (lines 58-106): keep the
first candidate achieving the strictly highest score; candidates whose
name does not match are skipped. -/
def fmrGo (nymN nymA : Str) (pool : List Rec) (idx : Nat)
    (best : Option Nat × Nat) : Option Nat × Nat :=
  match pool with
  | [] => best
  | nyt :: rest =>
    let nytN := normalize_name (strOrEmpty nyt.name)
    let nytA := normalize_address (strOrEmpty nyt.formatted_address)
    if nameMatches nymN nytN then
      let score := candScore nymN nymA nytN nytA
      if best.2 < score then fmrGo nymN nymA rest (idx + 1) (some idx, score)
      else fmrGo nymN nymA rest (idx + 1) best
    else fmrGo nymN nymA rest (idx + 1) best

/-- find_matching_restaurant (lines 46-112). -/
def find_matching_restaurant (nym : Rec) (pool : List Rec) : Option Nat :=
  let nymN := normalize_name (strOrEmpty nym.name)
  let nymA := normalize_address (strOrEmpty nym.address)
  if nymN.isEmpty then none
  else
    let best := fmrGo nymN nymA pool 0 (none, 0)
    if 10 ≤ best.2 then best.1 else none

end Matcher

/-- Sequential effectful map over Except (the semantics of iterating a
fallible operation over a list, as List.mapM does for Except). -/
def mapE {α β : Type} (f : α → Except Unit β) : List α → Except Unit (List β)
  | [] => .ok []
  | a :: t =>
    match f a with
    | .error e => .error e
    | .ok b =>
      match mapE f t with
      | .error e => .error e
      | .ok bs => .ok (b :: bs)

section ListMerger

/-- First pass of merge_restaurant_lists (lines 122-127): every NYT record
is copied, tagged with source NYT and given nyt_rank from its rank entry
(None when the rank key is missing). -/
def baseOfNyt (r : Rec) : Rec :=
  { r with sources := ["NYT".toList], nyt_rank := Fld.ofPy (r.rank.getPy none) }

/-- A matched base record absorbing a NYM record (lines 135-142). -/
def absorbNym (b nymR : Rec) : Rec :=
  let b1 : Rec := { b with sources := b.sources ++ ["NYM".toList],
                           nym_rank := Fld.ofPy (nymR.nym_rank.getPy none) }
  let b2 : Rec :=
    if !(Fld.tS b1.formatted_address) && Fld.tS nymR.address then
      { b1 with formatted_address := nymR.address }
    else b1
  if !(Fld.tS b2.website) && Fld.tS nymR.website then
    { b2 with website := nymR.website }
  else b2

/-- A new standalone record for an unmatched NYM record (lines 145-159). -/
def newFromNym (nymR : Rec) : Rec :=
  { Rec.empty with
      name := Fld.ofPy (nymR.name.getPy none),
      sources := ["NYM".toList],
      nym_rank := Fld.ofPy (nymR.nym_rank.getPy none),
      formatted_address := Fld.ofPy (nymR.address.getPy none),
      website := Fld.ofPy (nymR.website.getPy none),
      description := Fld.ofPy (nymR.description.getPy (some [])),
      rank := Fld.null, rating := Fld.null, review_count := Fld.null,
      price_range := Fld.null, cuisine := Fld.null, image_url := Fld.null }

/-- One iteration of the NYM loop (lines 130-160). The matched-index set
declared on line 119 is never consulted, so previously matched base
records stay eligible. -/
def stepNym (merged : List Rec) (nymR : Rec) : List Rec :=
  match find_matching_restaurant nymR merged with
  | some idx =>
    match merged[idx]? with
    | some b => merged.set idx (absorbNym b nymR)
    | none => merged
  | none => merged ++ [newFromNym nymR]

/-- combined_order assignment (lines 163-172). For a NYM-sourced record
whose nym_rank entry holds None, Python evaluates 100 + None and raises
TypeError, modelled as the error case; for an NYT-sourced record the
looked-up value (None when nyt_rank holds None) is stored unchanged. -/
def assignCombinedOrder (r : Rec) : Except Unit Rec :=
  if "NYT".toList ∈ r.sources then
    .ok { r with combined_order := Fld.ofPy (r.nyt_rank.getPy (some 999)) }
  else if "NYM".toList ∈ r.sources then
    match r.nym_rank.getPy (some 999) with
    | some n => .ok { r with combined_order := Fld.val (100 + n) }
    | none => .error ()
  else .ok { r with combined_order := Fld.val 999 }

/-- Sort key x.get('combined_order', 999) of the final sorts. The sorts
run only when no record holds combined_order None, so the inner fallback
for None is never consulted there. -/
def coKeyD (r : Rec) : Int := (r.combined_order.getPy (some 999)).getD 999

/-- Ordering of records by sort key. -/
def coLe (a b : Rec) : Prop := coKeyD a ≤ coKeyD b

instance : DecidableRel coLe := fun a b => Int.decLe _ _

instance : IsTotal Rec coLe := ⟨fun a b => Int.le_total (coKeyD a) (coKeyD b)⟩

instance : IsTrans Rec coLe := ⟨fun _ _ _ h1 h2 => Int.le_trans h1 h2⟩

/-- list.sort(key=lambda x: x.get('combined_order', 999)). Python raises
TypeError as soon as the sort compares None with anything, which happens
exactly when at least two elements exist and some key is None; otherwise
the sort is stable, and a stable sort by an integer key is insertion sort
by the ≤-on-keys relation. -/
def sortByCO (l : List Rec) : Except Unit (List Rec) :=
  if 2 ≤ l.length && l.any (fun r => (r.combined_order.getPy (some 999)).isNone)
  then .error ()
  else .ok (List.insertionSort coLe l)

/-- merge_restaurant_lists (lines 115-177). -/
def merge_restaurant_lists (nyt nym : List Rec) : Except Unit (List Rec) := do
  let merged := nym.foldl stepNym (nyt.map baseOfNyt)
  let out ← mapE assignCombinedOrder merged
  sortByCO out

end ListMerger

section FieldMerger

/-- sorted(list(all_sources)) where all_sources is the set union of the
groups' source tags (lines 26-33): the sorted ascending enumeration of the
distinct tags. -/
def mergeSources (rs : List Rec) : List Str :=
  List.insertionSort strLe (uniqKeys (rs.foldl (fun acc r => acc ++ r.sources) []))

/-- The rank comprehension [r.get(key) for r in rs if r.get(key)] (lines
36-37): the truthy (non-None, nonzero) rank values in order. -/
def truthyRanks (get : Rec → Fld Int) (rs : List Rec) : List Int :=
  rs.filterMap (fun r =>
    match (get r).getPy none with
    | some n => if n = 0 then none else some n
    | none => none)

/-- min of a nonempty int list. -/
def minInt (x : Int) (xs : List Int) : Int := xs.foldl min x

/-- combined_order computation of merge_restaurant_data (lines 44-50):
truthiness-guarded fallback from nyt_rank to 100 + nym_rank to 999. -/
def dedupCombinedOrder (m : Rec) : Int :=
  if Fld.tI m.nyt_rank then m.nyt_rank.valD 0
  else if Fld.tI m.nym_rank then 100 + m.nym_rank.valD 0
  else 999

/-- One iteration of the field loop (lines 55-58) for the name entry:
adopt the candidate value when the merged entry is falsy and the candidate
entry truthy. The eight analogous single-field updates follow. -/
def bfName (m r : Rec) : Rec :=
  if !(Fld.tS m.name) && Fld.tS r.name then { m with name := r.name } else m

/-- Field loop iteration for description. -/
def bfDescription (m r : Rec) : Rec :=
  if !(Fld.tS m.description) && Fld.tS r.description then
    { m with description := r.description } else m

/-- Field loop iteration for formatted_address. -/
def bfAddress (m r : Rec) : Rec :=
  if !(Fld.tS m.formatted_address) && Fld.tS r.formatted_address then
    { m with formatted_address := r.formatted_address } else m

/-- Field loop iteration for website. -/
def bfWebsite (m r : Rec) : Rec :=
  if !(Fld.tS m.website) && Fld.tS r.website then { m with website := r.website } else m

/-- Field loop iteration for phone. -/
def bfPhone (m r : Rec) : Rec :=
  if !(Fld.tS m.phone) && Fld.tS r.phone then { m with phone := r.phone } else m

/-- Field loop iteration for google_maps_url. -/
def bfMapsUrl (m r : Rec) : Rec :=
  if !(Fld.tS m.google_maps_url) && Fld.tS r.google_maps_url then
    { m with google_maps_url := r.google_maps_url } else m

/-- Field loop iteration for cuisine. -/
def bfCuisine (m r : Rec) : Rec :=
  if !(Fld.tS m.cuisine) && Fld.tS r.cuisine then { m with cuisine := r.cuisine } else m

/-- Field loop iteration for price_range. -/
def bfPriceRange (m r : Rec) : Rec :=
  if !(Fld.tS m.price_range) && Fld.tS r.price_range then
    { m with price_range := r.price_range } else m

/-- Field loop iteration for image_url. -/
def bfImageUrl (m r : Rec) : Rec :=
  if !(Fld.tS m.image_url) && Fld.tS r.image_url then
    { m with image_url := r.image_url } else m

/-- The nine-field backfill loop (lines 55-58), in source field order. -/
def backfill (m r : Rec) : Rec :=
  bfImageUrl (bfPriceRange (bfCuisine (bfMapsUrl (bfPhone (bfWebsite
    (bfAddress (bfDescription (bfName m r) r) r) r) r) r) r) r) r

/-- Strict comparison of two looked-up float values; in the source the
comparison is reached only when both are non-None. -/
def optGtQ : Option ℚ → Option ℚ → Bool
  | some a, some b => b < a
  | _, _ => false

/-- Strict comparison of two looked-up int values. -/
def optGtI : Option Int → Option Int → Bool
  | some a, some b => b < a
  | _, _ => false

/-- Strict > of two looked-up string values (lexicographic). -/
def optGtStr : Option Str → Option Str → Bool
  | some a, some b => strLt b a
  | _, _ => false

/-- Rating update (lines 61-63): adopt a truthy candidate rating that is
greater than the merged one (or when the merged one is falsy), together
with the candidate's google_rating defaulted to its rating. -/
def updRating (m r : Rec) : Rec :=
  if Fld.tQ r.rating && (!(Fld.tQ m.rating) || optGtQ (r.rating.getPy none) (m.rating.getPy none))
  then { m with rating := r.rating,
                google_rating := Fld.ofPy (r.google_rating.getPy (r.rating.getPy none)) }
  else m

/-- Review-count update (lines 66-68), independent of the rating update. -/
def updReview (m r : Rec) : Rec :=
  if Fld.tI r.review_count &&
      (!(Fld.tI m.review_count) || optGtI (r.review_count.getPy none) (m.review_count.getPy none))
  then { m with review_count := r.review_count,
                google_review_count :=
                  Fld.ofPy (r.google_review_count.getPy (r.review_count.getPy none)) }
  else m

/-- Coordinate update (lines 71-73). The source indexes r['longitude']
directly, which raises KeyError when the candidate has a latitude but no
longitude key: the error case. -/
def updCoords (m r : Rec) : Except Unit Rec :=
  if !(Fld.tQ m.latitude) && Fld.tQ r.latitude then
    match r.longitude with
    | .absent => .error ()
    | .null => .ok { m with latitude := r.latitude, longitude := Fld.null }
    | .val v => .ok { m with latitude := r.latitude, longitude := Fld.val v }
  else .ok m

/-- Opening-hours update (lines 76-78). -/
def updHours (m r : Rec) : Rec :=
  if !(Fld.tL m.opening_hours) && Fld.tL r.opening_hours then
    { m with opening_hours := r.opening_hours,
             is_open_now := Fld.ofPy (r.is_open_now.getPy none) }
  else m

/-- Timestamp update (lines 81-82). -/
def updLastUpdated (m r : Rec) : Rec :=
  if Fld.tS r.last_updated &&
      (!(Fld.tS m.last_updated) ||
        optGtStr (r.last_updated.getPy none) (m.last_updated.getPy none))
  then { m with last_updated := r.last_updated }
  else m

/-- One iteration of the merge loop of merge_restaurant_data (lines
53-82). -/
def mergeStep (m r : Rec) : Except Unit Rec := do
  let m4 ← updCoords (updReview (updRating (backfill m r) r) r) r
  .ok (updLastUpdated (updHours m4 r) r)

/-- The merged base record before the merge loop runs (lines 22-50): the
first record of the group with union-sorted sources, group-minimal truthy
ranks and the recomputed combined_order. -/
def mergeBase (r0 : Rec) (rs : List Rec) : Rec :=
  let base0 : Rec := { r0 with sources := mergeSources rs }
  let base1 : Rec :=
    match truthyRanks (fun r => r.nyt_rank) rs with
    | [] => base0
    | x :: xs => { base0 with nyt_rank := Fld.val (minInt x xs) }
  let base2 : Rec :=
    match truthyRanks (fun r => r.nym_rank) rs with
    | [] => base1
    | x :: xs => { base1 with nym_rank := Fld.val (minInt x xs) }
  { base2 with combined_order := Fld.val (dedupCombinedOrder base2) }

/-- merge_restaurant_data (lines 13-84): empty input gives the empty dict,
a singleton gives the record itself; otherwise the first record is the
base, sources are union-sorted, ranks minimized over the whole group,
combined_order recomputed, and every later record folded in. -/
def merge_restaurant_data : List Rec → Except Unit Rec
  | [] => .ok Rec.empty
  | [r] => .ok r
  | r0 :: rest => rest.foldlM mergeStep (mergeBase r0 (r0 :: rest))

end FieldMerger

section Deduplicator

/-- The grouping loop of deduplicate_restaurants evaluates
restaurant.get('name', '').lower() (and the same for the address) whenever
place_id is falsy; when the stored value is None this raises
AttributeError. -/
def keyCrashes (r : Rec) : Bool :=
  !(Fld.tS r.place_id) &&
    ((match r.name with | .null => true | _ => false) ||
     (match r.formatted_address with | .null => true | _ => false))

/-- r.get(key, '').lower().strip() for a string entry. -/
def lowerStrip (f : Fld Str) : Str := stripChars ((strOrEmpty f).map lowerChar)

/-- The grouping key (lines 94-103): place_id when truthy, else
name::address when both are nonempty after lowercasing and stripping, else
the synthetic key. The synthetic key is the constant "no-place-id-0":
nothing is ever appended to the no_place_id list in the source, so
len(no_place_id) is 0 at every iteration. -/
def keyFn (r : Rec) : Str :=
  if Fld.tS r.place_id then r.place_id.valD []
  else
    let n := lowerStrip r.name
    let a := lowerStrip r.formatted_address
    if !n.isEmpty && !a.isEmpty then n ++ "::".toList ++ a
    else "no-place-id-0".toList

/-- defaultdict(list) grouping by key: keys in first-occurrence order,
each holding its records in input order. -/
def groupsBy (l : List Rec) : List (Str × List Rec) :=
  (uniqKeys (l.map keyFn)).map (fun k => (k, l.filter (fun r => keyFn r == k)))

/-- One duplicate-audit entry (lines 111-115). -/
structure DupEntry where
  key : Str
  count : Nat
  names : List (Option Str)
deriving DecidableEq, Repr

/-- The emitted record of one group (lines 109-119): the field merge for
groups of size at least two, the single record otherwise (grouping never
produces an empty group). -/
def emitGroup (g : Str × List Rec) : Except Unit Rec :=
  if 2 ≤ g.2.length then merge_restaurant_data g.2
  else
    match g.2 with
    | [r] => .ok r
    | _ => .ok Rec.empty

/-- deduplicate_restaurants (lines 87-124): group by key, merge groups of
size at least two (collecting an audit entry for each), copy singletons
through, and sort by combined_order. -/
def deduplicate_restaurants (l : List Rec) : Except Unit (List Rec × List DupEntry) :=
  if l.any keyCrashes then .error ()
  else do
    let gs := groupsBy l
    let dups := (gs.filter (fun g => 2 ≤ g.2.length)).map
      (fun g => DupEntry.mk g.1 g.2.length (g.2.map (fun r => r.name.getPy none)))
    let merged ← mapE emitGroup gs
    let sorted ← sortByCO merged
    .ok (sorted, dups)

/-- A record whose key computation cannot crash and whose identity the
field merge preserves: a truthy place_id, or a non-null name and address
that stay nonempty after lowercasing and stripping. -/
def recUsable (r : Rec) : Bool :=
  Fld.tS r.place_id ||
  (!(match r.name with | Fld.null => true | _ => false) &&
    !(lowerStrip r.name).isEmpty &&
    !(match r.formatted_address with | Fld.null => true | _ => false) &&
    !(lowerStrip r.formatted_address).isEmpty)

/-- The combined_order of the merge of a nonempty group, written as a
function of the group alone: the rank minima drive the fallback chain,
so the head record's untruthy rank entries never matter. -/
def groupRankOrder (recs : List Rec) : Int :=
  match truthyRanks (fun r => r.nyt_rank) recs with
  | x :: xs => minInt x xs
  | [] =>
    match truthyRanks (fun r => r.nym_rank) recs with
    | x :: xs => 100 + minInt x xs
    | [] => 999

/-- The sort key of the record a group emits. -/
def groupSortKey (recs : List Rec) : Int :=
  if 2 ≤ recs.length then groupRankOrder recs
  else
    match recs with
    | [r] => coKeyD r
    | _ => 999

end Deduplicator

/-- First C10 sample record: place_id p, combined_order 5. -/
def c10X : Rec := { place_id := Fld.val "p".toList, combined_order := Fld.val 5 }

/-- Second C10 sample record: place_id q, combined_order 7. -/
def c10Y : Rec := { place_id := Fld.val "q".toList, combined_order := Fld.val 7 }

/-! ### Concrete sample records used in the claim theorems -/

/-- A record with a name but no address and no place_id. -/
def c1recA : Rec := { name := Fld.val "a".toList }

/-- A record with an address but no name and no place_id. -/
def c1recB : Rec := { formatted_address := Fld.val "b".toList }

/-- An NYT record with name a and rank 1. -/
def c3nyt : Rec := { name := Fld.val "a".toList, rank := Fld.val 1 }

/-- A NYM record with the same name. -/
def c3nym : Rec := { name := Fld.val "a".toList }

/-- A NYM record carrying only a name (its nym_rank key is missing, so the
new standalone record stores nym_rank None). -/
def c4nym : Rec := { name := Fld.val "x".toList }

/-- An NYT record carrying only a name (its rank key is missing, so the
base record stores nyt_rank None). -/
def c4nyt : Rec := { name := Fld.val "x".toList }

/-- First duplicate: rating 4.2 (= 21/5) with 300 reviews. -/
def c2recA : Rec :=
  { place_id := Fld.val "abc".toList, rating := Fld.val (mkRat 21 5),
    review_count := Fld.val 300 }

/-- Second duplicate: rating 4.6 (= 23/5) with 250 reviews. -/
def c2recB : Rec :=
  { place_id := Fld.val "abc".toList, rating := Fld.val (mkRat 23 5),
    review_count := Fld.val 250 }

/-- A record with only a name. -/
def c8recA : Rec := { name := Fld.val "a".toList }

/-- A record with only an address. -/
def c8recB : Rec := { formatted_address := Fld.val "b".toList }

/-- A record with the name and the address of the two previous records. -/
def c8recC : Rec :=
  { name := Fld.val "a".toList, formatted_address := Fld.val "b".toList }

/-! ### Auxiliary relations for the proofs -/

/-- Agreement on the identity-relevant fields none of the merge-loop
updates touch. -/
def Keeps (a b : Rec) : Prop :=
  a.place_id = b.place_id ∧ a.combined_order = b.combined_order ∧
  a.sources = b.sources ∧ a.nyt_rank = b.nyt_rank ∧ a.nym_rank = b.nym_rank

/-- Agreement on the rating pair. -/
def KeepsRating (a b : Rec) : Prop :=
  a.rating = b.rating ∧ a.google_rating = b.google_rating

/-- Agreement on the review-count pair. -/
def KeepsReview (a b : Rec) : Prop :=
  a.review_count = b.review_count ∧ a.google_review_count = b.google_review_count

/-- Agreement on name and formatted address. -/
def KeepsNA (a b : Rec) : Prop :=
  a.name = b.name ∧ a.formatted_address = b.formatted_address

/-- Agreement on the coordinates. -/
def KeepsLL (a b : Rec) : Prop :=
  a.latitude = b.latitude ∧ a.longitude = b.longitude

/-! ### Auxiliary predicates for the normalizer analysis -/

/-- Every character of the text is fixed by lowerChar. -/
def allLower (l : Str) : Bool := l.all (fun c => lowerChar c == c)

/-- Every character of the text survives the punctuation filter. -/
def wordspace (l : Str) : Bool := l.all isWS

/-- The character is either not whitespace or the plain space. -/
def spaceBlank (c : Char) : Bool := !isSpaceChar c || c == ' '

/-- The only whitespace character occurring in the text is the plain space. -/
def allBlank (l : Str) : Bool := l.all spaceBlank

/-- No two adjacent characters of the text are both whitespace. -/
def noTwoSpaces (l : Str) : Prop :=
  l.Chain' (fun a b => ¬(isSpaceChar a = true ∧ isSpaceChar b = true))

/-- The first character exists and is whitespace. -/
def headSpace (l : Str) : Bool :=
  match l.head? with
  | some c => isSpaceChar c
  | none => false

/-- The last character exists and is whitespace. -/
def lastSpace (l : Str) : Bool :=
  match l.getLast? with
  | some c => isSpaceChar c
  | none => false

/-- Neither edge character is whitespace, so str.strip() is the identity. -/
def stripped (l : Str) : Bool := !headSpace l && !lastSpace l

/-- Worker for wordRuns: acc holds the reversed word-character run read so
far. -/
def wordRunsAux (acc : Str) : Str → List Str
  | [] => if acc.isEmpty then [] else [acc.reverse]
  | c :: rest =>
    if isWordChar c then wordRunsAux (c :: acc) rest
    else (if acc.isEmpty then [] else [acc.reverse]) ++ wordRunsAux [] rest

/-- The maximal word-character runs of the text, in order: the units on
which substWord operates. -/
def wordRuns (l : Str) : List Str := wordRunsAux [] l

/-- The canonical shape of normalizer output produced from punctuation-free
input: lowercase, punctuation-free, stripped, with single plain spaces as
the only whitespace. Text of this shape is a fixed point of
normalize_name. -/
def canonicalStr (l : Str) : Prop :=
  wordspace l = true ∧ allLower l = true ∧ stripped l = true ∧
    noTwoSpaces l ∧ allBlank l = true

/-- The canonical shape for normalize_address: canonicalStr together with
the absence of the six abbreviation target words among the word runs. -/
def canonicalAddr (l : Str) : Prop :=
  canonicalStr l ∧ ∀ pr ∈ streetAbbrevs, pr.1 ∉ wordRuns l

/-! ## Theorems -/

/-! ### Frame lemmas for the field-merge updates -/

theorem Keeps.refl (a : Rec) : Keeps a a := ⟨Eq.refl _, Eq.refl _, Eq.refl _, Eq.refl _, Eq.refl _⟩

theorem Keeps_trans {a b c : Rec} (h1 : Keeps a b) (h2 : Keeps b c) : Keeps a c :=
  ⟨h1.1.trans h2.1, h1.2.1.trans h2.2.1, h1.2.2.1.trans h2.2.2.1,
   h1.2.2.2.1.trans h2.2.2.2.1, h1.2.2.2.2.trans h2.2.2.2.2⟩

theorem KeepsRating_trans {a b c : Rec} (h1 : KeepsRating a b) (h2 : KeepsRating b c) :
    KeepsRating a c := ⟨h1.1.trans h2.1, h1.2.trans h2.2⟩

theorem KeepsReview_trans {a b c : Rec} (h1 : KeepsReview a b) (h2 : KeepsReview b c) :
    KeepsReview a c := ⟨h1.1.trans h2.1, h1.2.trans h2.2⟩

theorem KeepsNA_trans {a b c : Rec} (h1 : KeepsNA a b) (h2 : KeepsNA b c) :
    KeepsNA a c := ⟨h1.1.trans h2.1, h1.2.trans h2.2⟩

theorem KeepsLL_trans {a b c : Rec} (h1 : KeepsLL a b) (h2 : KeepsLL b c) :
    KeepsLL a c := ⟨h1.1.trans h2.1, h1.2.trans h2.2⟩

theorem bfName_keeps (m r : Rec) :
    Keeps (bfName m r) m ∧ KeepsRating (bfName m r) m ∧ KeepsReview (bfName m r) m ∧
      KeepsLL (bfName m r) m ∧ (bfName m r).formatted_address = m.formatted_address := by
  unfold bfName Keeps KeepsRating KeepsReview KeepsLL
  split <;> exact ⟨⟨rfl, rfl, rfl, rfl, rfl⟩, ⟨rfl, rfl⟩, ⟨rfl, rfl⟩, ⟨rfl, rfl⟩, rfl⟩

theorem bfName_name_of_truthy (m r : Rec) (h : Fld.tS m.name = true) :
    (bfName m r).name = m.name := by
  simp [bfName, h]

theorem bfDescription_keeps (m r : Rec) :
    Keeps (bfDescription m r) m ∧ KeepsRating (bfDescription m r) m ∧
      KeepsReview (bfDescription m r) m ∧ KeepsLL (bfDescription m r) m ∧
      KeepsNA (bfDescription m r) m := by
  unfold bfDescription Keeps KeepsRating KeepsReview KeepsLL KeepsNA
  split <;> exact ⟨⟨rfl, rfl, rfl, rfl, rfl⟩, ⟨rfl, rfl⟩, ⟨rfl, rfl⟩, ⟨rfl, rfl⟩, ⟨rfl, rfl⟩⟩

theorem bfAddress_keeps (m r : Rec) :
    Keeps (bfAddress m r) m ∧ KeepsRating (bfAddress m r) m ∧
      KeepsReview (bfAddress m r) m ∧ KeepsLL (bfAddress m r) m ∧
      (bfAddress m r).name = m.name := by
  unfold bfAddress Keeps KeepsRating KeepsReview KeepsLL
  split <;> exact ⟨⟨rfl, rfl, rfl, rfl, rfl⟩, ⟨rfl, rfl⟩, ⟨rfl, rfl⟩, ⟨rfl, rfl⟩, rfl⟩

theorem bfAddress_addr_of_truthy (m r : Rec) (h : Fld.tS m.formatted_address = true) :
    (bfAddress m r).formatted_address = m.formatted_address := by
  simp [bfAddress, h]

theorem bfWebsite_keeps (m r : Rec) :
    Keeps (bfWebsite m r) m ∧ KeepsRating (bfWebsite m r) m ∧
      KeepsReview (bfWebsite m r) m ∧ KeepsLL (bfWebsite m r) m ∧
      KeepsNA (bfWebsite m r) m := by
  unfold bfWebsite Keeps KeepsRating KeepsReview KeepsLL KeepsNA
  split <;> exact ⟨⟨rfl, rfl, rfl, rfl, rfl⟩, ⟨rfl, rfl⟩, ⟨rfl, rfl⟩, ⟨rfl, rfl⟩, ⟨rfl, rfl⟩⟩

theorem bfPhone_keeps (m r : Rec) :
    Keeps (bfPhone m r) m ∧ KeepsRating (bfPhone m r) m ∧
      KeepsReview (bfPhone m r) m ∧ KeepsLL (bfPhone m r) m ∧
      KeepsNA (bfPhone m r) m := by
  unfold bfPhone Keeps KeepsRating KeepsReview KeepsLL KeepsNA
  split <;> exact ⟨⟨rfl, rfl, rfl, rfl, rfl⟩, ⟨rfl, rfl⟩, ⟨rfl, rfl⟩, ⟨rfl, rfl⟩, ⟨rfl, rfl⟩⟩

theorem bfMapsUrl_keeps (m r : Rec) :
    Keeps (bfMapsUrl m r) m ∧ KeepsRating (bfMapsUrl m r) m ∧
      KeepsReview (bfMapsUrl m r) m ∧ KeepsLL (bfMapsUrl m r) m ∧
      KeepsNA (bfMapsUrl m r) m := by
  unfold bfMapsUrl Keeps KeepsRating KeepsReview KeepsLL KeepsNA
  split <;> exact ⟨⟨rfl, rfl, rfl, rfl, rfl⟩, ⟨rfl, rfl⟩, ⟨rfl, rfl⟩, ⟨rfl, rfl⟩, ⟨rfl, rfl⟩⟩

theorem bfCuisine_keeps (m r : Rec) :
    Keeps (bfCuisine m r) m ∧ KeepsRating (bfCuisine m r) m ∧
      KeepsReview (bfCuisine m r) m ∧ KeepsLL (bfCuisine m r) m ∧
      KeepsNA (bfCuisine m r) m := by
  unfold bfCuisine Keeps KeepsRating KeepsReview KeepsLL KeepsNA
  split <;> exact ⟨⟨rfl, rfl, rfl, rfl, rfl⟩, ⟨rfl, rfl⟩, ⟨rfl, rfl⟩, ⟨rfl, rfl⟩, ⟨rfl, rfl⟩⟩

theorem bfPriceRange_keeps (m r : Rec) :
    Keeps (bfPriceRange m r) m ∧ KeepsRating (bfPriceRange m r) m ∧
      KeepsReview (bfPriceRange m r) m ∧ KeepsLL (bfPriceRange m r) m ∧
      KeepsNA (bfPriceRange m r) m := by
  unfold bfPriceRange Keeps KeepsRating KeepsReview KeepsLL KeepsNA
  split <;> exact ⟨⟨rfl, rfl, rfl, rfl, rfl⟩, ⟨rfl, rfl⟩, ⟨rfl, rfl⟩, ⟨rfl, rfl⟩, ⟨rfl, rfl⟩⟩

theorem bfImageUrl_keeps (m r : Rec) :
    Keeps (bfImageUrl m r) m ∧ KeepsRating (bfImageUrl m r) m ∧
      KeepsReview (bfImageUrl m r) m ∧ KeepsLL (bfImageUrl m r) m ∧
      KeepsNA (bfImageUrl m r) m := by
  unfold bfImageUrl Keeps KeepsRating KeepsReview KeepsLL KeepsNA
  split <;> exact ⟨⟨rfl, rfl, rfl, rfl, rfl⟩, ⟨rfl, rfl⟩, ⟨rfl, rfl⟩, ⟨rfl, rfl⟩, ⟨rfl, rfl⟩⟩

theorem backfill_keeps (m r : Rec) :
    Keeps (backfill m r) m ∧ KeepsRating (backfill m r) m ∧
      KeepsReview (backfill m r) m ∧ KeepsLL (backfill m r) m := by
  unfold backfill
  have h1 := bfName_keeps m r
  have h2 := bfDescription_keeps (bfName m r) r
  have h3 := bfAddress_keeps (bfDescription (bfName m r) r) r
  have h4 := bfWebsite_keeps (bfAddress (bfDescription (bfName m r) r) r) r
  have h5 := bfPhone_keeps (bfWebsite (bfAddress (bfDescription (bfName m r) r) r) r) r
  have h6 := bfMapsUrl_keeps
    (bfPhone (bfWebsite (bfAddress (bfDescription (bfName m r) r) r) r) r) r
  have h7 := bfCuisine_keeps
    (bfMapsUrl (bfPhone (bfWebsite (bfAddress (bfDescription (bfName m r) r) r) r) r) r) r
  have h8 := bfPriceRange_keeps
    (bfCuisine (bfMapsUrl (bfPhone (bfWebsite (bfAddress (bfDescription (bfName m r) r) r)
      r) r) r) r) r
  have h9 := bfImageUrl_keeps
    (bfPriceRange (bfCuisine (bfMapsUrl (bfPhone (bfWebsite (bfAddress (bfDescription
      (bfName m r) r) r) r) r) r) r) r) r
  exact ⟨Keeps_trans h9.1 (Keeps_trans h8.1 (Keeps_trans h7.1 (Keeps_trans h6.1
          (Keeps_trans h5.1 (Keeps_trans h4.1 (Keeps_trans h3.1
          (Keeps_trans h2.1 h1.1))))))),
        KeepsRating_trans h9.2.1 (KeepsRating_trans h8.2.1 (KeepsRating_trans h7.2.1
          (KeepsRating_trans h6.2.1 (KeepsRating_trans h5.2.1 (KeepsRating_trans h4.2.1
          (KeepsRating_trans h3.2.1 (KeepsRating_trans h2.2.1 h1.2.1))))))),
        KeepsReview_trans h9.2.2.1 (KeepsReview_trans h8.2.2.1 (KeepsReview_trans h7.2.2.1
          (KeepsReview_trans h6.2.2.1 (KeepsReview_trans h5.2.2.1 (KeepsReview_trans h4.2.2.1
          (KeepsReview_trans h3.2.2.1 (KeepsReview_trans h2.2.2.1 h1.2.2.1))))))),
        KeepsLL_trans h9.2.2.2.1 (KeepsLL_trans h8.2.2.2.1 (KeepsLL_trans h7.2.2.2.1
          (KeepsLL_trans h6.2.2.2.1 (KeepsLL_trans h5.2.2.2.1 (KeepsLL_trans h4.2.2.2.1
          (KeepsLL_trans h3.2.2.2.1 (KeepsLL_trans h2.2.2.2.1 h1.2.2.2.1)))))))⟩

theorem backfill_name_of_truthy (m r : Rec) (h : Fld.tS m.name = true) :
    (backfill m r).name = m.name := by
  unfold backfill
  have e1 : (bfName m r).name = m.name := bfName_name_of_truthy m r h
  have e2 := (bfDescription_keeps (bfName m r) r).2.2.2.2.1
  have e3 := (bfAddress_keeps (bfDescription (bfName m r) r) r).2.2.2.2
  have e4 := (bfWebsite_keeps (bfAddress (bfDescription (bfName m r) r) r) r).2.2.2.2.1
  have e5 := (bfPhone_keeps (bfWebsite (bfAddress (bfDescription (bfName m r) r) r) r)
    r).2.2.2.2.1
  have e6 := (bfMapsUrl_keeps (bfPhone (bfWebsite (bfAddress (bfDescription (bfName m r)
    r) r) r) r) r).2.2.2.2.1
  have e7 := (bfCuisine_keeps (bfMapsUrl (bfPhone (bfWebsite (bfAddress (bfDescription
    (bfName m r) r) r) r) r) r) r).2.2.2.2.1
  have e8 := (bfPriceRange_keeps (bfCuisine (bfMapsUrl (bfPhone (bfWebsite (bfAddress
    (bfDescription (bfName m r) r) r) r) r) r) r) r).2.2.2.2.1
  have e9 := (bfImageUrl_keeps (bfPriceRange (bfCuisine (bfMapsUrl (bfPhone (bfWebsite
    (bfAddress (bfDescription (bfName m r) r) r) r) r) r) r) r) r).2.2.2.2.1
  exact e9.trans (e8.trans (e7.trans (e6.trans (e5.trans (e4.trans (e3.trans
    (e2.trans e1)))))))

theorem backfill_addr_of_truthy (m r : Rec) (h : Fld.tS m.formatted_address = true) :
    (backfill m r).formatted_address = m.formatted_address := by
  unfold backfill
  have e1 := (bfName_keeps m r).2.2.2.2
  have e2 := (bfDescription_keeps (bfName m r) r).2.2.2.2.2
  have h2 : Fld.tS (bfDescription (bfName m r) r).formatted_address = true := by
    rw [e2, e1, h]
  have e3 : (bfAddress (bfDescription (bfName m r) r) r).formatted_address
      = (bfDescription (bfName m r) r).formatted_address :=
    bfAddress_addr_of_truthy _ r h2
  have e4 := (bfWebsite_keeps (bfAddress (bfDescription (bfName m r) r) r) r).2.2.2.2.2
  have e5 := (bfPhone_keeps (bfWebsite (bfAddress (bfDescription (bfName m r) r) r) r)
    r).2.2.2.2.2
  have e6 := (bfMapsUrl_keeps (bfPhone (bfWebsite (bfAddress (bfDescription (bfName m r)
    r) r) r) r) r).2.2.2.2.2
  have e7 := (bfCuisine_keeps (bfMapsUrl (bfPhone (bfWebsite (bfAddress (bfDescription
    (bfName m r) r) r) r) r) r) r).2.2.2.2.2
  have e8 := (bfPriceRange_keeps (bfCuisine (bfMapsUrl (bfPhone (bfWebsite (bfAddress
    (bfDescription (bfName m r) r) r) r) r) r) r) r).2.2.2.2.2
  have e9 := (bfImageUrl_keeps (bfPriceRange (bfCuisine (bfMapsUrl (bfPhone (bfWebsite
    (bfAddress (bfDescription (bfName m r) r) r) r) r) r) r) r) r).2.2.2.2.2
  exact e9.trans (e8.trans (e7.trans (e6.trans (e5.trans (e4.trans (e3.trans
    (e2.trans e1)))))))

theorem updRating_keeps (m r : Rec) :
    Keeps (updRating m r) m ∧ KeepsReview (updRating m r) m ∧
      KeepsNA (updRating m r) m ∧ KeepsLL (updRating m r) m := by
  unfold updRating Keeps KeepsReview KeepsNA KeepsLL
  split <;> exact ⟨⟨rfl, rfl, rfl, rfl, rfl⟩, ⟨rfl, rfl⟩, ⟨rfl, rfl⟩, ⟨rfl, rfl⟩⟩

/-- The rating pair after updRating: either untouched, or set from the
candidate under the replacement condition. -/
theorem updRating_eq (m r : Rec) :
    ((updRating m r).rating = m.rating ∧ (updRating m r).google_rating = m.google_rating) ∨
    (Fld.tQ r.rating = true ∧
      (Fld.tQ m.rating = false ∨ optGtQ (r.rating.getPy none) (m.rating.getPy none) = true) ∧
      (updRating m r).rating = r.rating ∧
      (updRating m r).google_rating = Fld.ofPy (r.google_rating.getPy (r.rating.getPy none))) := by
  unfold updRating
  split
  case isTrue h =>
    rw [Bool.and_eq_true, Bool.or_eq_true, Bool.not_eq_true'] at h
    exact Or.inr ⟨h.1, h.2, rfl, rfl⟩
  case isFalse => exact Or.inl ⟨rfl, rfl⟩

theorem updReview_keeps (m r : Rec) :
    Keeps (updReview m r) m ∧ KeepsRating (updReview m r) m ∧
      KeepsNA (updReview m r) m ∧ KeepsLL (updReview m r) m := by
  unfold updReview Keeps KeepsRating KeepsNA KeepsLL
  split <;> exact ⟨⟨rfl, rfl, rfl, rfl, rfl⟩, ⟨rfl, rfl⟩, ⟨rfl, rfl⟩, ⟨rfl, rfl⟩⟩

/-- The review pair after updReview: either untouched, or set from the
candidate under the replacement condition. -/
theorem updReview_eq (m r : Rec) :
    ((updReview m r).review_count = m.review_count ∧
      (updReview m r).google_review_count = m.google_review_count) ∨
    (Fld.tI r.review_count = true ∧
      (Fld.tI m.review_count = false ∨
        optGtI (r.review_count.getPy none) (m.review_count.getPy none) = true) ∧
      (updReview m r).review_count = r.review_count ∧
      (updReview m r).google_review_count =
        Fld.ofPy (r.google_review_count.getPy (r.review_count.getPy none))) := by
  unfold updReview
  split
  case isTrue h =>
    rw [Bool.and_eq_true, Bool.or_eq_true, Bool.not_eq_true'] at h
    exact Or.inr ⟨h.1, h.2, rfl, rfl⟩
  case isFalse => exact Or.inl ⟨rfl, rfl⟩

theorem updCoords_ok_keeps (m r m' : Rec) (h : updCoords m r = .ok m') :
    Keeps m' m ∧ KeepsRating m' m ∧ KeepsReview m' m ∧ KeepsNA m' m := by
  unfold updCoords at h
  split at h
  · split at h
    · exact absurd h (by simp)
    · cases h
      exact ⟨⟨rfl, rfl, rfl, rfl, rfl⟩, ⟨rfl, rfl⟩, ⟨rfl, rfl⟩, ⟨rfl, rfl⟩⟩
    · cases h
      exact ⟨⟨rfl, rfl, rfl, rfl, rfl⟩, ⟨rfl, rfl⟩, ⟨rfl, rfl⟩, ⟨rfl, rfl⟩⟩
  · cases h
    exact ⟨⟨rfl, rfl, rfl, rfl, rfl⟩, ⟨rfl, rfl⟩, ⟨rfl, rfl⟩, ⟨rfl, rfl⟩⟩

/-- updCoords succeeds when the candidate satisfies the both-or-neither
coordinate discipline, and the result keeps it. -/
theorem updCoords_ok_of (m r : Rec)
    (hr : Fld.tQ r.latitude = true → r.longitude ≠ Fld.absent)
    (hm : Fld.tQ m.latitude = true → m.longitude ≠ Fld.absent) :
    ∃ m', updCoords m r = .ok m' ∧
      (Fld.tQ m'.latitude = true → m'.longitude ≠ Fld.absent) := by
  unfold updCoords
  split
  case isTrue hc =>
    rw [Bool.and_eq_true] at hc
    have hra := hr hc.2
    match hlong : r.longitude with
    | .absent => exact absurd hlong hra
    | .null => exact ⟨_, Eq.refl _, fun _ => by simp⟩
    | .val v => exact ⟨_, Eq.refl _, fun _ => by simp⟩
  case isFalse => exact ⟨m, Eq.refl _, hm⟩

theorem updHours_keeps (m r : Rec) :
    Keeps (updHours m r) m ∧ KeepsRating (updHours m r) m ∧
      KeepsReview (updHours m r) m ∧ KeepsNA (updHours m r) m ∧
      KeepsLL (updHours m r) m := by
  unfold updHours Keeps KeepsRating KeepsReview KeepsNA KeepsLL
  split <;> exact ⟨⟨rfl, rfl, rfl, rfl, rfl⟩, ⟨rfl, rfl⟩, ⟨rfl, rfl⟩, ⟨rfl, rfl⟩, ⟨rfl, rfl⟩⟩

theorem updLastUpdated_keeps (m r : Rec) :
    Keeps (updLastUpdated m r) m ∧ KeepsRating (updLastUpdated m r) m ∧
      KeepsReview (updLastUpdated m r) m ∧ KeepsNA (updLastUpdated m r) m ∧
      KeepsLL (updLastUpdated m r) m := by
  unfold updLastUpdated Keeps KeepsRating KeepsReview KeepsNA KeepsLL
  split <;> exact ⟨⟨rfl, rfl, rfl, rfl, rfl⟩, ⟨rfl, rfl⟩, ⟨rfl, rfl⟩, ⟨rfl, rfl⟩, ⟨rfl, rfl⟩⟩

/-- Success and decomposition of one merge-loop iteration. -/
theorem mergeStep_ok_iff (m r m' : Rec) :
    mergeStep m r = .ok m' ↔
      ∃ m4, updCoords (updReview (updRating (backfill m r) r) r) r = .ok m4 ∧
        m' = updLastUpdated (updHours m4 r) r := by
  unfold mergeStep
  cases h : updCoords (updReview (updRating (backfill m r) r) r) r <;>
    simp [h, Except.bind, Bind.bind, pure, Except.pure, eq_comm]

/-- The merge loop never touches place_id, combined_order, sources or the
rank entries. -/
theorem mergeStep_ok_keeps (m r m' : Rec) (h : mergeStep m r = .ok m') : Keeps m' m := by
  obtain ⟨m4, h4, heq⟩ := (mergeStep_ok_iff m r m').mp h
  subst heq
  exact Keeps_trans (updLastUpdated_keeps (updHours m4 r) r).1
      (Keeps_trans (updHours_keeps m4 r).1 (Keeps_trans (updCoords_ok_keeps _ r m4 h4).1
        (Keeps_trans (updReview_keeps (updRating (backfill m r) r) r).1
          (Keeps_trans (updRating_keeps (backfill m r) r).1 (backfill_keeps m r).1))))

/-- The rating pair after one merge-loop iteration: kept, or adopted from
the candidate together with its google_rating default. -/
theorem mergeStep_ok_ratingPair (m r m' : Rec) (h : mergeStep m r = .ok m') :
    (m'.rating = m.rating ∧ m'.google_rating = m.google_rating) ∨
    (Fld.tQ r.rating = true ∧ m'.rating = r.rating ∧
      m'.google_rating = Fld.ofPy (r.google_rating.getPy (r.rating.getPy none))) := by
  obtain ⟨m4, h4, heq⟩ := (mergeStep_ok_iff m r m').mp h
  subst heq
  have k5 := (updLastUpdated_keeps (updHours m4 r) r).2.1
  have k4 := (updHours_keeps m4 r).2.1
  have k3 := (updCoords_ok_keeps _ r m4 h4).2.1
  have k2 := (updReview_keeps (updRating (backfill m r) r) r).2.1
  have kb := (backfill_keeps m r).2.1
  have e1 : (updLastUpdated (updHours m4 r) r).rating = (updRating (backfill m r) r).rating :=
    k5.1.trans (k4.1.trans (k3.1.trans k2.1))
  have e2 : (updLastUpdated (updHours m4 r) r).google_rating
      = (updRating (backfill m r) r).google_rating :=
    k5.2.trans (k4.2.trans (k3.2.trans k2.2))
  rcases updRating_eq (backfill m r) r with ⟨ha, hb⟩ | ⟨ht, _, ha, hb⟩
  · exact Or.inl ⟨e1.trans (ha.trans kb.1), e2.trans (hb.trans kb.2)⟩
  · exact Or.inr ⟨ht, e1.trans ha, e2.trans hb⟩

/-- The review pair after one merge-loop iteration. -/
theorem mergeStep_ok_reviewPair (m r m' : Rec) (h : mergeStep m r = .ok m') :
    (m'.review_count = m.review_count ∧ m'.google_review_count = m.google_review_count) ∨
    (Fld.tI r.review_count = true ∧ m'.review_count = r.review_count ∧
      m'.google_review_count = Fld.ofPy (r.google_review_count.getPy
        (r.review_count.getPy none))) := by
  obtain ⟨m4, h4, heq⟩ := (mergeStep_ok_iff m r m').mp h
  subst heq
  have k5 := (updLastUpdated_keeps (updHours m4 r) r).2.2.1
  have k4 := (updHours_keeps m4 r).2.2.1
  have k3 := (updCoords_ok_keeps _ r m4 h4).2.2.1
  have e1 : (updLastUpdated (updHours m4 r) r).review_count
      = (updReview (updRating (backfill m r) r) r).review_count :=
    k5.1.trans (k4.1.trans k3.1)
  have e2 : (updLastUpdated (updHours m4 r) r).google_review_count
      = (updReview (updRating (backfill m r) r) r).google_review_count :=
    k5.2.trans (k4.2.trans k3.2)
  have kr := (updRating_keeps (backfill m r) r).2.1
  have kb := (backfill_keeps m r).2.2.1
  rcases updReview_eq (updRating (backfill m r) r) r with ⟨ha, hb⟩ | ⟨ht, _, ha, hb⟩
  · exact Or.inl ⟨e1.trans (ha.trans (kr.1.trans kb.1)), e2.trans (hb.trans (kr.2.trans kb.2))⟩
  · exact Or.inr ⟨ht, e1.trans ha, e2.trans hb⟩

/-- Characterization of float-entry truthiness. -/
theorem tQ_iff (f : Fld ℚ) :
    Fld.tQ f = true ↔ ∃ q : ℚ, f.getPy none = some q ∧ q ≠ 0 := by
  unfold Fld.tQ truthyQ
  cases h : f.getPy none <;> simp

/-- Characterization of int-entry truthiness. -/
theorem tI_iff (f : Fld Int) :
    Fld.tI f = true ↔ ∃ n : Int, f.getPy none = some n ∧ n ≠ 0 := by
  unfold Fld.tI truthyInt
  cases h : f.getPy none <;> simp

/-- A truthy rating value is never pushed below any value it already
dominates by updRating. -/
theorem updRating_value_mono (m r : Rec) (q : ℚ)
    (hq : m.rating.getPy none = some q) (hq0 : q ≠ 0) :
    ∃ v, (updRating m r).rating.getPy none = some v ∧ q ≤ v ∧ v ≠ 0 := by
  have hmt : Fld.tQ m.rating = true := (tQ_iff m.rating).mpr ⟨q, hq, hq0⟩
  unfold updRating
  split
  case isTrue h =>
    rw [Bool.and_eq_true, Bool.or_eq_true, Bool.not_eq_true'] at h
    obtain ⟨q', hq', hq'0⟩ := (tQ_iff r.rating).mp h.1
    rcases h.2 with hmf | hgt
    · rw [hmt] at hmf; cases hmf
    · rw [hq', hq] at hgt
      unfold optGtQ at hgt
      rw [decide_eq_true_eq] at hgt
      exact ⟨q', by simpa using hq', le_of_lt hgt, hq'0⟩
  case isFalse => exact ⟨q, hq, le_refl q, hq0⟩

/-- After updRating processes a candidate with a truthy rating, the result
dominates that candidate's value. -/
theorem updRating_value_step (m r : Rec) (q : ℚ)
    (hrq : r.rating.getPy none = some q) (hq0 : q ≠ 0) :
    ∃ v, (updRating m r).rating.getPy none = some v ∧ q ≤ v ∧ v ≠ 0 := by
  have hrt : Fld.tQ r.rating = true := (tQ_iff r.rating).mpr ⟨q, hrq, hq0⟩
  unfold updRating
  split
  case isTrue _ =>
    refine ⟨q, ?_, le_refl q, hq0⟩
    have : r.rating = Fld.val q := by
      cases hf : r.rating <;> rw [hf] at hrq <;> simp [Fld.getPy] at hrq
      · rw [hrq]
    rw [this]
    rfl
  case isFalse h =>
    rw [Bool.and_eq_true] at h
    push_neg at h
    have h2 := h hrt
    have h3 : (!Fld.tQ m.rating
        || optGtQ (r.rating.getPy none) (m.rating.getPy none)) = false :=
      Bool.eq_false_iff.mpr h2
    rw [Bool.or_eq_false_iff, Bool.not_eq_false'] at h3
    obtain ⟨hmt, hngt⟩ := h3
    obtain ⟨v, hv, hv0⟩ := (tQ_iff m.rating).mp hmt
    rw [hrq, hv] at hngt
    unfold optGtQ at hngt
    rw [decide_eq_false_iff_not] at hngt
    exact ⟨v, hv, le_of_not_lt hngt, hv0⟩

/-- Int version of updRating_value_mono, for updReview. -/
theorem updReview_value_mono (m r : Rec) (n : Int)
    (hn : m.review_count.getPy none = some n) (hn0 : n ≠ 0) :
    ∃ v, (updReview m r).review_count.getPy none = some v ∧ n ≤ v ∧ v ≠ 0 := by
  have hmt : Fld.tI m.review_count = true := (tI_iff m.review_count).mpr ⟨n, hn, hn0⟩
  unfold updReview
  split
  case isTrue h =>
    rw [Bool.and_eq_true, Bool.or_eq_true, Bool.not_eq_true'] at h
    obtain ⟨n', hn', hn'0⟩ := (tI_iff r.review_count).mp h.1
    rcases h.2 with hmf | hgt
    · rw [hmt] at hmf; cases hmf
    · rw [hn', hn] at hgt
      unfold optGtI at hgt
      rw [decide_eq_true_eq] at hgt
      exact ⟨n', by simpa using hn', le_of_lt hgt, hn'0⟩
  case isFalse => exact ⟨n, hn, le_refl n, hn0⟩

/-- Int version of updRating_value_step, for updReview. -/
theorem updReview_value_step (m r : Rec) (n : Int)
    (hrn : r.review_count.getPy none = some n) (hn0 : n ≠ 0) :
    ∃ v, (updReview m r).review_count.getPy none = some v ∧ n ≤ v ∧ v ≠ 0 := by
  have hrt : Fld.tI r.review_count = true := (tI_iff r.review_count).mpr ⟨n, hrn, hn0⟩
  unfold updReview
  split
  case isTrue _ =>
    refine ⟨n, ?_, le_refl n, hn0⟩
    have : r.review_count = Fld.val n := by
      cases hf : r.review_count <;> rw [hf] at hrn <;> simp [Fld.getPy] at hrn
      · rw [hrn]
    rw [this]
    rfl
  case isFalse h =>
    rw [Bool.and_eq_true] at h
    push_neg at h
    have h2 := h hrt
    have h3 : (!Fld.tI m.review_count
        || optGtI (r.review_count.getPy none) (m.review_count.getPy none)) = false :=
      Bool.eq_false_iff.mpr h2
    rw [Bool.or_eq_false_iff, Bool.not_eq_false'] at h3
    obtain ⟨hmt, hngt⟩ := h3
    obtain ⟨v, hv, hv0⟩ := (tI_iff m.review_count).mp hmt
    rw [hrn, hv] at hngt
    unfold optGtI at hngt
    rw [decide_eq_false_iff_not] at hngt
    exact ⟨v, hv, le_of_not_lt hngt, hv0⟩

/-- The rating entry of a merge-loop result equals the one produced by the
rating update of that iteration. -/
theorem mergeStep_ok_rating_upd (m r m' : Rec) (h : mergeStep m r = .ok m') :
    m'.rating = (updRating (backfill m r) r).rating := by
  obtain ⟨m4, h4, heq⟩ := (mergeStep_ok_iff m r m').mp h
  subst heq
  exact ((updLastUpdated_keeps (updHours m4 r) r).2.1.1).trans
    (((updHours_keeps m4 r).2.1.1).trans (((updCoords_ok_keeps _ r m4 h4).2.1.1).trans
      ((updReview_keeps (updRating (backfill m r) r) r).2.1.1)))

/-- The review entry of a merge-loop result equals the one produced by the
review update of that iteration. -/
theorem mergeStep_ok_review_upd (m r m' : Rec) (h : mergeStep m r = .ok m') :
    m'.review_count = (updReview (updRating (backfill m r) r) r).review_count := by
  obtain ⟨m4, h4, heq⟩ := (mergeStep_ok_iff m r m').mp h
  subst heq
  exact ((updLastUpdated_keeps (updHours m4 r) r).2.2.1.1).trans
    (((updHours_keeps m4 r).2.2.1.1).trans ((updCoords_ok_keeps _ r m4 h4).2.2.1.1))

theorem mergeStep_ok_rating_mono (m r m' : Rec) (h : mergeStep m r = .ok m') (q : ℚ)
    (hq : m.rating.getPy none = some q) (hq0 : q ≠ 0) :
    ∃ v, m'.rating.getPy none = some v ∧ q ≤ v ∧ v ≠ 0 := by
  rw [mergeStep_ok_rating_upd m r m' h]
  apply updRating_value_mono
  · rw [(backfill_keeps m r).2.1.1, hq]
  · exact hq0

theorem mergeStep_ok_rating_step (m r m' : Rec) (h : mergeStep m r = .ok m') (q : ℚ)
    (hq : r.rating.getPy none = some q) (hq0 : q ≠ 0) :
    ∃ v, m'.rating.getPy none = some v ∧ q ≤ v ∧ v ≠ 0 := by
  rw [mergeStep_ok_rating_upd m r m' h]
  exact updRating_value_step _ r q hq hq0

theorem mergeStep_ok_review_mono (m r m' : Rec) (h : mergeStep m r = .ok m') (n : Int)
    (hn : m.review_count.getPy none = some n) (hn0 : n ≠ 0) :
    ∃ v, m'.review_count.getPy none = some v ∧ n ≤ v ∧ v ≠ 0 := by
  rw [mergeStep_ok_review_upd m r m' h]
  apply updReview_value_mono
  · rw [(updRating_keeps (backfill m r) r).2.1.1, (backfill_keeps m r).2.2.1.1, hn]
  · exact hn0

theorem mergeStep_ok_review_step (m r m' : Rec) (h : mergeStep m r = .ok m') (n : Int)
    (hn : r.review_count.getPy none = some n) (hn0 : n ≠ 0) :
    ∃ v, m'.review_count.getPy none = some v ∧ n ≤ v ∧ v ≠ 0 := by
  rw [mergeStep_ok_review_upd m r m' h]
  exact updReview_value_step _ r n hn hn0

/-- A dominated truthy rating value persists through the whole merge
loop. -/
theorem foldlM_rating_persist (rs : List Rec) (b m : Rec)
    (h : rs.foldlM mergeStep b = .ok m) (q : ℚ)
    (hb : ∃ v, b.rating.getPy none = some v ∧ q ≤ v ∧ v ≠ 0) :
    ∃ v, m.rating.getPy none = some v ∧ q ≤ v ∧ v ≠ 0 := by
  induction rs generalizing b
  case nil =>
    simp only [List.foldlM_nil, pure, Except.pure, Except.ok.injEq] at h
    exact h ▸ hb
  case cons r tl ih =>
    rw [List.foldlM_cons] at h
    cases hs : mergeStep b r with
    | error e => rw [hs] at h; exact absurd h (by simp [Except.bind, Bind.bind])
    | ok b1 =>
      rw [hs] at h
      simp only [Except.bind, Bind.bind] at h
      obtain ⟨v, hv, hle, hv0⟩ := hb
      obtain ⟨v1, hv1, hle1, hv10⟩ := mergeStep_ok_rating_mono b r b1 hs v hv hv0
      exact ih b1 h ⟨v1, hv1, le_trans hle hle1, hv10⟩

/-- A dominated truthy review count persists through the whole merge
loop. -/
theorem foldlM_review_persist (rs : List Rec) (b m : Rec)
    (h : rs.foldlM mergeStep b = .ok m) (n : Int)
    (hb : ∃ v, b.review_count.getPy none = some v ∧ n ≤ v ∧ v ≠ 0) :
    ∃ v, m.review_count.getPy none = some v ∧ n ≤ v ∧ v ≠ 0 := by
  induction rs generalizing b
  case nil =>
    simp only [List.foldlM_nil, pure, Except.pure, Except.ok.injEq] at h
    exact h ▸ hb
  case cons r tl ih =>
    rw [List.foldlM_cons] at h
    cases hs : mergeStep b r with
    | error e => rw [hs] at h; exact absurd h (by simp [Except.bind, Bind.bind])
    | ok b1 =>
      rw [hs] at h
      simp only [Except.bind, Bind.bind] at h
      obtain ⟨v, hv, hle, hv0⟩ := hb
      obtain ⟨v1, hv1, hle1, hv10⟩ := mergeStep_ok_review_mono b r b1 hs v hv hv0
      exact ih b1 h ⟨v1, hv1, le_trans hle hle1, hv10⟩

/-- Provenance and maximality of the rating and review pairs over the
whole merge loop. -/
theorem foldlM_rating_review (rs : List Rec) (b m : Rec)
    (h : rs.foldlM mergeStep b = .ok m) :
    (((m.rating = b.rating ∧ m.google_rating = b.google_rating) ∨
      ∃ r ∈ rs, Fld.tQ r.rating = true ∧ m.rating = r.rating ∧
        m.google_rating = Fld.ofPy (r.google_rating.getPy (r.rating.getPy none))) ∧
     ∀ r ∈ rs, ∀ q : ℚ, r.rating.getPy none = some q → q ≠ 0 →
       ∃ v, m.rating.getPy none = some v ∧ q ≤ v ∧ v ≠ 0) ∧
    (((m.review_count = b.review_count ∧
        m.google_review_count = b.google_review_count) ∨
      ∃ r ∈ rs, Fld.tI r.review_count = true ∧ m.review_count = r.review_count ∧
        m.google_review_count = Fld.ofPy (r.google_review_count.getPy
          (r.review_count.getPy none))) ∧
     ∀ r ∈ rs, ∀ n : Int, r.review_count.getPy none = some n → n ≠ 0 →
       ∃ v, m.review_count.getPy none = some v ∧ n ≤ v ∧ v ≠ 0) := by
  induction rs generalizing b
  case nil =>
    simp only [List.foldlM_nil, pure, Except.pure, Except.ok.injEq] at h
    subst h
    exact ⟨⟨Or.inl ⟨rfl, rfl⟩, by simp⟩, ⟨Or.inl ⟨rfl, rfl⟩, by simp⟩⟩
  case cons r tl ih =>
    rw [List.foldlM_cons] at h
    cases hs : mergeStep b r with
    | error e => rw [hs] at h; exact absurd h (by simp [Except.bind, Bind.bind])
    | ok b1 =>
      rw [hs] at h
      simp only [Except.bind, Bind.bind] at h
      obtain ⟨⟨ihRP, ihRM⟩, ⟨ihVP, ihVM⟩⟩ := ih b1 h
      constructor
      · constructor
        · rcases ihRP with ⟨e1, e2⟩ | ⟨r', hmem, hr'⟩
          · rcases mergeStep_ok_ratingPair b r b1 hs with ⟨f1, f2⟩ | ⟨ht, f1, f2⟩
            · exact Or.inl ⟨e1.trans f1, e2.trans f2⟩
            · exact Or.inr ⟨r, List.mem_cons_self r tl, ht, e1.trans f1, e2.trans f2⟩
          · exact Or.inr ⟨r', List.mem_cons_of_mem r hmem, hr'⟩
        · intro r' hmem q hq hq0
          rcases List.mem_cons.mp hmem with rfl | hmem'
          · obtain ⟨v1, hv1, hle1, hv10⟩ := mergeStep_ok_rating_step b r' b1 hs q hq hq0
            exact foldlM_rating_persist tl b1 m h q ⟨v1, hv1, hle1, hv10⟩
          · exact ihRM r' hmem' q hq hq0
      · constructor
        · rcases ihVP with ⟨e1, e2⟩ | ⟨r', hmem, hr'⟩
          · rcases mergeStep_ok_reviewPair b r b1 hs with ⟨f1, f2⟩ | ⟨ht, f1, f2⟩
            · exact Or.inl ⟨e1.trans f1, e2.trans f2⟩
            · exact Or.inr ⟨r, List.mem_cons_self r tl, ht, e1.trans f1, e2.trans f2⟩
          · exact Or.inr ⟨r', List.mem_cons_of_mem r hmem, hr'⟩
        · intro r' hmem n hn hn0
          rcases List.mem_cons.mp hmem with rfl | hmem'
          · obtain ⟨v1, hv1, hle1, hv10⟩ := mergeStep_ok_review_step b r' b1 hs n hn hn0
            exact foldlM_review_persist tl b1 m h n ⟨v1, hv1, hle1, hv10⟩
          · exact ihVM r' hmem' n hn hn0

/-- The base record of the merge agrees with the group head on every field
the rank/source/order recomputation does not touch, and its
combined_order always holds a value. -/
theorem mergeBase_proj (r0 : Rec) (rs : List Rec) :
    (mergeBase r0 rs).rating = r0.rating ∧
    (mergeBase r0 rs).google_rating = r0.google_rating ∧
    (mergeBase r0 rs).review_count = r0.review_count ∧
    (mergeBase r0 rs).google_review_count = r0.google_review_count ∧
    (mergeBase r0 rs).name = r0.name ∧
    (mergeBase r0 rs).formatted_address = r0.formatted_address ∧
    (mergeBase r0 rs).place_id = r0.place_id ∧
    (mergeBase r0 rs).latitude = r0.latitude ∧
    (mergeBase r0 rs).longitude = r0.longitude ∧
    (mergeBase r0 rs).sources = mergeSources rs ∧
    ∃ co : Int, (mergeBase r0 rs).combined_order = Fld.val co := by
  unfold mergeBase
  split <;> split <;>
    exact ⟨rfl, rfl, rfl, rfl, rfl, rfl, rfl, rfl, rfl, rfl, _, rfl⟩

/-! ### Claim C2: amended theorem -/

/-- C2 amended: in field merging, rating and review count are each
replaced only by a truthy candidate that strictly dominates (the final
merged value dominates every truthy candidate of the group tail), and the
two fields update independently: whichever record's rating wins
contributes its own google_rating (defaulting to its rating) in the same
step, and the review count analogously updates together with
google_review_count, each pair always originating in a single record. -/
theorem rating_and_review_update_per_field (r0 : Rec) (rest : List Rec) (m : Rec)
    (h : merge_restaurant_data (r0 :: rest) = .ok m) :
    (((m.rating = r0.rating ∧ m.google_rating = r0.google_rating) ∨
      ∃ r ∈ rest, Fld.tQ r.rating = true ∧ m.rating = r.rating ∧
        m.google_rating = Fld.ofPy (r.google_rating.getPy (r.rating.getPy none))) ∧
     ∀ r ∈ rest, ∀ q : ℚ, r.rating.getPy none = some q → q ≠ 0 →
       ∃ v, m.rating.getPy none = some v ∧ q ≤ v ∧ v ≠ 0) ∧
    (((m.review_count = r0.review_count ∧
        m.google_review_count = r0.google_review_count) ∨
      ∃ r ∈ rest, Fld.tI r.review_count = true ∧ m.review_count = r.review_count ∧
        m.google_review_count = Fld.ofPy (r.google_review_count.getPy
          (r.review_count.getPy none))) ∧
     ∀ r ∈ rest, ∀ n : Int, r.review_count.getPy none = some n → n ≠ 0 →
       ∃ v, m.review_count.getPy none = some v ∧ n ≤ v ∧ v ≠ 0) := by
  match rest with
  | [] =>
    have hm : m = r0 := by
      unfold merge_restaurant_data at h
      exact (Except.ok.injEq _ _).mp h.symm |>.symm ▸ rfl
    subst hm
    exact ⟨⟨Or.inl ⟨rfl, rfl⟩, by simp⟩, ⟨Or.inl ⟨rfl, rfl⟩, by simp⟩⟩
  | r1 :: tl =>
    have hfold : (r1 :: tl).foldlM mergeStep (mergeBase r0 (r0 :: r1 :: tl)) = .ok m := h
    have hproj := mergeBase_proj r0 (r0 :: r1 :: tl)
    obtain ⟨⟨hRP, hRM⟩, ⟨hVP, hVM⟩⟩ := foldlM_rating_review _ _ m hfold
    refine ⟨⟨?_, hRM⟩, ⟨?_, hVM⟩⟩
    · rcases hRP with ⟨e1, e2⟩ | he
      · exact Or.inl ⟨e1.trans hproj.1, e2.trans hproj.2.1⟩
      · exact Or.inr he
    · rcases hVP with ⟨e1, e2⟩ | he
      · exact Or.inl ⟨e1.trans hproj.2.2.1, e2.trans hproj.2.2.2.1⟩
      · exact Or.inr he

/-- Witness for the amended C2 theorem at the Scenario-B style group: the
merged rating dominates the tail candidate 4.6. -/
theorem rating_and_review_update_per_field_holds :
    ∃ v : ℚ, (merge_restaurant_data [c2recA, c2recB]).map
        (fun m => m.rating.getPy none) = .ok (some v) ∧ mkRat 23 5 ≤ v := by
  have hok : merge_restaurant_data [c2recA, c2recB]
      = .ok { c2recA with rating := Fld.val (mkRat 23 5),
                          google_rating := Fld.val (mkRat 23 5),
                          sources := [], combined_order := Fld.val 999 } := by
    decide
  have H := rating_and_review_update_per_field c2recA [c2recB] _ hok
  obtain ⟨v, hv, hvle, _⟩ := H.1.2 c2recB (by simp) (mkRat 23 5) (by decide) (by decide)
  refine ⟨v, ?_, hvle⟩
  rw [hok]
  exact congrArg Except.ok hv

/-! ### Claim C1 -/

/-- C1: the synthetic fallback key is the same constant string for every
record that lacks both a place identifier and a full name+address pair
(len(no_place_id) is always 0 because that list is never appended to), so
two unrelated such records receive equal identity keys and are merged into
a single record. This contradicts the claim that such records are never
grouped together. -/
theorem dedup_synthetic_key_collides :
    keyFn c1recA = keyFn c1recB ∧ c1recA ≠ c1recB ∧
    (deduplicate_restaurants [c1recA, c1recB]).map (fun p => p.1.length) = .ok 1 := by
  decide

/-! ### Claim C3 -/

/-- C3: the set of matched base indices declared on line 119 of
merge_restaurant_lists.py is never consulted, so a base record already
matched in the pass stays eligible; two NYM records matching the same NYT
base are both absorbed into it and the NYM tag is appended twice: the
merged record's sources are NYT, NYM, NYM, a collection with a duplicate
tag. -/
theorem listmerge_base_absorbs_two_nym_records :
    (merge_restaurant_lists [c3nyt] [c3nym, c3nym]).map (fun l => l.map Rec.sources)
      = .ok [["NYT".toList, "NYM".toList, "NYM".toList]] := by
  decide

/-! ### Claim C4 -/

/-- C4: the combined_order computation of merge_restaurant_lists is not
total. A NYM-only record whose nym_rank entry holds None makes the code
evaluate 100 + None, a TypeError (first two conjuncts); an NYT-sourced
record whose nyt_rank entry holds None receives combined_order None
instead of a numeric fallback (third conjunct). The truthiness-guarded
variant in merge_restaurant_data behaves as the claim describes: a record
with nyt_rank None and nym_rank 3 yields 103, and one with no ranks at all
yields 999 (last two conjuncts). -/
theorem listmerge_combined_order_not_total :
    assignCombinedOrder { Rec.empty with sources := ["NYM".toList], nym_rank := Fld.null }
        = .error () ∧
    merge_restaurant_lists [] [c4nym] = .error () ∧
    (merge_restaurant_lists [c4nyt] []).map (fun l => l.map Rec.combined_order)
        = .ok [Fld.null] ∧
    dedupCombinedOrder { Rec.empty with nyt_rank := Fld.null, nym_rank := Fld.val 3 } = 103 ∧
    dedupCombinedOrder Rec.empty = 999 := by
  decide

/-! ### Claim C6 -/

/-- C6: neither normalize_name maps "Joe & Sons" and "joe and sons" to the
same key. The merge_restaurant_lists variant deletes the ampersand instead
of expanding it, giving "joe sons"; the merge_place_ids variant expands
the ampersand but its lowercasing and apostrophe handling are dead
assignments, giving "Joe and Sons" with the capitals intact. -/
theorem normalize_name_ampersand_divergence :
    normalize_name "Joe & Sons".toList ≠ normalize_name "joe and sons".toList ∧
    normalize_name "Joe & Sons".toList = "joe sons".toList ∧
    MPID.normalize_name "Joe & Sons".toList ≠ MPID.normalize_name "joe and sons".toList ∧
    MPID.normalize_name "Joe & Sons".toList = "Joe and Sons".toList := by
  decide

/-! ### Claim C9 -/

/-- C9: called on the empty group, merge_restaurant_data returns the empty
record rather than an error; called on a singleton group it returns that
record unchanged (the copy in the source is the identity on record
values). -/
theorem merge_data_empty_and_singleton :
    merge_restaurant_data [] = .ok Rec.empty ∧
    ∀ r : Rec, merge_restaurant_data [r] = .ok r :=
  ⟨rfl, fun _ => rfl⟩

/-! ### Claim C2: counterexample -/

/-- C2 counterexample: rating and review count update independently, so
the merged record pairs the second record's rating 4.6 with the first
record's review count 300 — the claim that the winning rating's review
count is adopted atomically fails on this group. -/
theorem merged_rating_pairs_foreign_review_count :
    c2recA.rating = Fld.val (mkRat 21 5) ∧ c2recA.review_count = Fld.val 300 ∧
    c2recB.rating = Fld.val (mkRat 23 5) ∧ c2recB.review_count = Fld.val 250 ∧
    (merge_restaurant_data [c2recA, c2recB]).map Rec.rating = .ok (Fld.val (mkRat 23 5)) ∧
    (merge_restaurant_data [c2recA, c2recB]).map Rec.review_count = .ok (Fld.val 300) := by
  decide

/-! ### Claim C5 -/

/-- C5 counterexample: when both sides lack an address the two normalized
addresses are equal empty strings and the exact-equality bonus applies:
the address component contributes 15, not the claimed 10 (with an exact
name match the candidate scores 30 where the claim predicts 25). -/
theorem addr_bonus_when_both_sides_lack_address :
    addrScore [] [] = 15 ∧ candScore "a".toList [] "a".toList [] = 30 := by
  decide

/-- C5 amended: for a pair with at least one missing address the address
component contributes 10 when exactly one side lacks the address (vacuous
match, no bonus) and 15 when both lack it (the empty keys compare equal
and earn the bonus). -/
theorem addrScore_of_missing_address (na ba : Str) (h : na = [] ∨ ba = []) :
    addrScore na ba = if na = [] ∧ ba = [] then 15 else 10 := by
  rcases h with rfl | rfl
  · cases ba <;> simp [addrScore, addressMatches]
  · cases na <;> simp [addrScore, addressMatches]

/-- Witness for the amended C5 theorem at a concrete pair with exactly one
side lacking an address. -/
theorem addrScore_of_missing_address_holds : addrScore [] "b".toList = 10 := by
  have h := addrScore_of_missing_address [] "b".toList (Or.inl rfl)
  simpa using h

/-! ### Claim C7: counterexample -/

/-- C7 counterexample: one application of either normalizer is not a fixed
point. Stripping punctuation from "! a" exposes a leading space that only
a second application removes: both normalizers map "! a" to " a" but
" a" to "a". -/
theorem normalizers_not_idempotent :
    normalize_name (normalize_name "! a".toList) ≠ normalize_name "! a".toList ∧
    normalize_address (normalize_address "! a".toList) ≠ normalize_address "! a".toList := by
  decide

/-! ### Claim C8: counterexample -/

/-- C8 counterexample: deduplication is not idempotent. The two records
lacking identity share the constant synthetic key and merge in the first
pass into a record that acquires both the name a and the address b; the
second pass keys that merged record as a::b, where it collides with the
third record, so the first pass returns two records and the second pass
merges them into one. -/
theorem dedup_not_idempotent :
    (deduplicate_restaurants [c8recA, c8recB, c8recC]).map (fun p => p.1.length) = .ok 2 ∧
    ((deduplicate_restaurants [c8recA, c8recB, c8recC]).bind
        (fun p => deduplicate_restaurants p.1)).map (fun p => p.1.length) = .ok 1 := by
  decide

/-! ### Grouping and permutation lemmas -/

theorem uniqKeysAux_mem (a : Str) (l : List Str) :
    ∀ seen, a ∈ uniqKeysAux seen l ↔ a ∈ l ∧ a ∉ seen := by
  induction l with
  | nil => intro seen; simp [uniqKeysAux]
  | cons k rest ih =>
    intro seen
    unfold uniqKeysAux
    by_cases hk : k ∈ seen
    · rw [if_pos hk, ih seen]
      constructor
      · rintro ⟨h1, h2⟩; exact ⟨List.mem_cons_of_mem k h1, h2⟩
      · rintro ⟨h1, h2⟩
        rcases List.mem_cons.mp h1 with rfl | h1'
        · exact absurd hk h2
        · exact ⟨h1', h2⟩
    · rw [if_neg hk]
      simp only [List.mem_cons, ih (k :: seen)]
      constructor
      · rintro (rfl | ⟨h1, h2⟩)
        · exact ⟨Or.inl rfl, hk⟩
        · exact ⟨Or.inr h1, fun hs => h2 (Or.inr hs)⟩
      · rintro ⟨rfl | h1, h2⟩
        · exact Or.inl rfl
        · by_cases hak : a = k
          · exact Or.inl hak
          · exact Or.inr ⟨h1, fun hs => (hs.elim hak h2 : False)⟩

theorem uniqKeys_mem (a : Str) (l : List Str) : a ∈ uniqKeys l ↔ a ∈ l := by
  rw [uniqKeys, uniqKeysAux_mem]
  simp

theorem uniqKeysAux_nodup (l : List Str) : ∀ seen, (uniqKeysAux seen l).Nodup := by
  induction l with
  | nil => intro seen; simp [uniqKeysAux]
  | cons k rest ih =>
    intro seen
    unfold uniqKeysAux
    by_cases hk : k ∈ seen
    · rw [if_pos hk]; exact ih seen
    · rw [if_neg hk]
      refine List.nodup_cons.mpr ⟨?_, ih (k :: seen)⟩
      intro hmem
      exact ((uniqKeysAux_mem k rest (k :: seen)).mp hmem).2 (List.mem_cons_self k seen)

theorem uniqKeys_nodup (l : List Str) : (uniqKeys l).Nodup := uniqKeysAux_nodup l []

theorem uniqKeysAux_eq_self (l : List Str) :
    ∀ seen, l.Nodup → (∀ a ∈ l, a ∉ seen) → uniqKeysAux seen l = l := by
  induction l with
  | nil => intro seen _ _; rfl
  | cons k rest ih =>
    intro seen hnd hs
    unfold uniqKeysAux
    rw [if_neg (hs k (List.mem_cons_self k rest))]
    congr 1
    refine ih (k :: seen) (List.nodup_cons.mp hnd).2 ?_
    intro a ha hmem
    rcases List.mem_cons.mp hmem with rfl | h
    · exact (List.nodup_cons.mp hnd).1 ha
    · exact hs a (List.mem_cons_of_mem k ha) h

theorem uniqKeys_eq_self (l : List Str) (h : l.Nodup) : uniqKeys l = l :=
  uniqKeysAux_eq_self l [] h (by simp)

/-- Permutation invariance of the first-occurrence key list, up to
permutation. -/
theorem uniqKeys_perm {l1 l2 : List Str} (h : l1.Perm l2) :
    (uniqKeys l1).Perm (uniqKeys l2) := by
  rw [List.perm_ext_iff_of_nodup (uniqKeys_nodup l1) (uniqKeys_nodup l2)]
  intro a
  rw [uniqKeys_mem, uniqKeys_mem]
  exact ⟨fun ha => h.mem_iff.mp ha, fun ha => h.mem_iff.mpr ha⟩

theorem groupsBy_fst (l : List Rec) :
    (groupsBy l).map Prod.fst = uniqKeys (l.map keyFn) := by
  rw [groupsBy, List.map_map]
  exact List.map_id _ ▸ List.map_congr_left fun k _ => rfl

/-- Every group holds exactly the records with that key, in input order. -/
theorem groupsBy_mem (l : List Rec) (k : Str) (g : List Rec)
    (h : (k, g) ∈ groupsBy l) :
    g = l.filter (fun r => keyFn r == k) ∧ k ∈ l.map keyFn := by
  unfold groupsBy at h
  obtain ⟨k', hk', heq⟩ := List.mem_map.mp h
  obtain ⟨h1, h2⟩ := Prod.mk.injEq .. ▸ heq
  constructor
  · rw [← h2, ← h1]
  · rw [← h1]; exact (uniqKeys_mem k' (l.map keyFn)).mp hk'

theorem filter_key_ne_nil (l : List Rec) (k : Str) (h : k ∈ l.map keyFn) :
    l.filter (fun r => keyFn r == k) ≠ [] := by
  obtain ⟨r, hr, hkr⟩ := List.mem_map.mp h
  intro hnil
  have : r ∈ l.filter (fun r => keyFn r == k) :=
    List.mem_filter.mpr ⟨hr, by simp [hkr]⟩
  rw [hnil] at this
  exact List.not_mem_nil r this

/-- With pairwise distinct keys every record is alone with its key. -/
theorem filter_key_of_nodup (l : List Rec) (h : (l.map keyFn).Nodup) :
    ∀ r ∈ l, l.filter (fun x => keyFn x == keyFn r) = [r] := by
  induction l with
  | nil => intro r hr; cases hr
  | cons a t ih =>
    intro r hr
    have hna : keyFn a ∉ t.map keyFn := by
      intro hmem
      exact (List.nodup_cons.mp (by simpa using h)).1 hmem
    rcases List.mem_cons.mp hr with rfl | hrt
    · rw [List.filter_cons_of_pos (by simp)]
      congr 1
      rw [List.filter_eq_nil_iff]
      intro x hx hbeq
      rw [beq_iff_eq] at hbeq
      exact hna (hbeq ▸ List.mem_map_of_mem keyFn hx)
    · rw [List.filter_cons_of_neg, ih (List.nodup_cons.mp (by simpa using h)).2 r hrt]
      simp only [beq_iff_eq]
      intro heq
      exact hna (heq ▸ List.mem_map_of_mem keyFn hrt)

/-- Grouping a list with pairwise distinct keys gives singleton groups in
list order. -/
theorem groupsBy_of_nodup (l : List Rec) (h : (l.map keyFn).Nodup) :
    groupsBy l = l.map (fun r => (keyFn r, [r])) := by
  unfold groupsBy
  rw [uniqKeys_eq_self (l.map keyFn) h, List.map_map]
  exact List.map_congr_left fun r hr => by
    simp only [Function.comp_apply]
    rw [filter_key_of_nodup l h r hr]

/-- Success of the effectful map as an elementwise relation. -/
theorem mapE_ok_iff {α β : Type} (f : α → Except Unit β) (l : List α) (es : List β) :
    mapE f l = .ok es ↔ List.Forall₂ (fun a b => f a = .ok b) l es := by
  induction l generalizing es with
  | nil =>
    constructor
    · intro h; cases h; exact List.Forall₂.nil
    · intro h; cases h; rfl
  | cons a t ih =>
    unfold mapE
    cases hfa : f a with
    | error e =>
      constructor
      · intro h; cases h
      · intro h
        cases h with
        | cons hab ht => rw [hfa] at hab; cases hab
    | ok b =>
      cases hmt : mapE f t with
      | error e =>
        constructor
        · intro h; cases h
        · intro h
          cases h with
          | cons hab ht =>
            have := (ih _).mpr ht
            rw [hmt] at this
            cases this
      | ok bs =>
        constructor
        · intro h
          cases h
          exact List.Forall₂.cons hfa ((ih bs).mp hmt)
        · intro h
          cases h with
          | cons hab ht =>
            rw [hfa] at hab
            cases hab
            have := (ih _).mpr ht
            rw [hmt] at this
            cases this
            rfl

/-- Build a successful effectful map from elementwise success. -/
theorem mapE_ok_of_forall {α β : Type} (f : α → Except Unit β) (l : List α)
    (P : α → β → Prop) (h : ∀ a ∈ l, ∃ b, f a = .ok b ∧ P a b) :
    ∃ es, mapE f l = .ok es ∧ List.Forall₂ P l es := by
  induction l with
  | nil => exact ⟨[], rfl, List.Forall₂.nil⟩
  | cons a t ih =>
    obtain ⟨b, hb, hPb⟩ := h a (List.mem_cons_self a t)
    obtain ⟨es, hes, hPes⟩ := ih (fun x hx => h x (List.mem_cons_of_mem a hx))
    refine ⟨b :: es, ?_, List.Forall₂.cons hPb hPes⟩
    unfold mapE
    rw [hb, hes]

theorem minInt_mem (x : Int) (xs : List Int) : minInt x xs ∈ x :: xs := by
  induction xs generalizing x with
  | nil => simp [minInt]
  | cons y ys ih =>
    have hstep : minInt x (y :: ys) = minInt (min x y) ys := rfl
    rw [hstep]
    rcases List.mem_cons.mp (ih (min x y)) with hm | hm
    · rw [hm]
      rcases min_choice x y with hc | hc <;> rw [hc] <;> simp
    · simp [List.mem_cons, hm]

theorem minInt_le (x : Int) (xs : List Int) : ∀ y ∈ x :: xs, minInt x xs ≤ y := by
  induction xs generalizing x with
  | nil =>
    intro y hy
    rcases List.mem_cons.mp hy with h | h
    · rw [h]; exact le_refl _
    · cases h
  | cons z zs ih =>
    intro y hy
    have hstep : minInt x (z :: zs) = minInt (min x z) zs := rfl
    rw [hstep]
    rcases List.mem_cons.mp hy with h | hyt
    · rw [h]
      exact le_trans (ih (min x z) _ (List.mem_cons_self _ _)) (min_le_left x z)
    · rcases List.mem_cons.mp hyt with h | hyz
      · rw [h]
        exact le_trans (ih (min x z) _ (List.mem_cons_self _ _)) (min_le_right x z)
      · exact ih (min x z) y (List.mem_cons_of_mem _ hyz)

/-- The minimum of a nonempty int list only depends on its multiset of
elements. -/
theorem minInt_perm {x y : Int} {xs ys : List Int}
    (h : (x :: xs).Perm (y :: ys)) : minInt x xs = minInt y ys := by
  apply le_antisymm
  · exact minInt_le x xs _ (h.mem_iff.mpr (minInt_mem y ys))
  · exact minInt_le y ys _ (h.mem_iff.mp (minInt_mem x xs))

/-! ### Identity preservation through the field merge -/

theorem foldlM_keeps (rs : List Rec) (b m : Rec)
    (h : rs.foldlM mergeStep b = .ok m) : Keeps m b := by
  induction rs generalizing b
  case nil =>
    simp only [List.foldlM_nil, pure, Except.pure, Except.ok.injEq] at h
    exact h ▸ Keeps.refl m
  case cons r tl ih =>
    rw [List.foldlM_cons] at h
    cases hs : mergeStep b r with
    | error e => rw [hs] at h; exact absurd h (by simp [Except.bind, Bind.bind])
    | ok b1 =>
      rw [hs] at h
      simp only [Except.bind, Bind.bind] at h
      exact Keeps_trans (ih b1 h) (mergeStep_ok_keeps b r b1 hs)

/-- One merge iteration leaves a truthy name and a truthy address in
place. -/
theorem mergeStep_ok_na (m r m' : Rec) (h : mergeStep m r = .ok m') :
    (Fld.tS m.name = true → m'.name = m.name) ∧
    (Fld.tS m.formatted_address = true → m'.formatted_address = m.formatted_address) := by
  obtain ⟨m4, h4, heq⟩ := (mergeStep_ok_iff m r m').mp h
  subst heq
  have k5 := (updLastUpdated_keeps (updHours m4 r) r).2.2.2.1
  have k4 := (updHours_keeps m4 r).2.2.2.1
  have k3 := (updCoords_ok_keeps _ r m4 h4).2.2.2
  have k2 := (updReview_keeps (updRating (backfill m r) r) r).2.2.1
  have k1 := (updRating_keeps (backfill m r) r).2.2.1
  constructor
  · intro ht
    exact (k5.1.trans (k4.1.trans (k3.1.trans (k2.1.trans k1.1)))).trans
      (backfill_name_of_truthy m r ht)
  · intro ht
    exact (k5.2.trans (k4.2.trans (k3.2.trans (k2.2.trans k1.2)))).trans
      (backfill_addr_of_truthy m r ht)

theorem foldlM_na (rs : List Rec) (b m : Rec) (h : rs.foldlM mergeStep b = .ok m) :
    (Fld.tS b.name = true → m.name = b.name) ∧
    (Fld.tS b.formatted_address = true → m.formatted_address = b.formatted_address) := by
  induction rs generalizing b
  case nil =>
    simp only [List.foldlM_nil, pure, Except.pure, Except.ok.injEq] at h
    exact h ▸ ⟨fun _ => rfl, fun _ => rfl⟩
  case cons r tl ih =>
    rw [List.foldlM_cons] at h
    cases hs : mergeStep b r with
    | error e => rw [hs] at h; exact absurd h (by simp [Except.bind, Bind.bind])
    | ok b1 =>
      rw [hs] at h
      simp only [Except.bind, Bind.bind] at h
      obtain ⟨sn, sa⟩ := mergeStep_ok_na b r b1 hs
      obtain ⟨fn, fa⟩ := ih b1 h
      constructor
      · intro ht
        have e1 := sn ht
        exact (fn (by rw [e1]; exact ht)).trans e1
      · intro ht
        have e1 := sa ht
        exact (fa (by rw [e1]; exact ht)).trans e1

/-- One merge iteration succeeds on a coordinate-disciplined candidate and
preserves the discipline. -/
theorem mergeStep_total (m r : Rec)
    (hr : Fld.tQ r.latitude = true → r.longitude ≠ Fld.absent)
    (hm : Fld.tQ m.latitude = true → m.longitude ≠ Fld.absent) :
    ∃ m', mergeStep m r = .ok m' ∧
      (Fld.tQ m'.latitude = true → m'.longitude ≠ Fld.absent) := by
  have kb := (backfill_keeps m r).2.2.2
  have k1 := (updRating_keeps (backfill m r) r).2.2.2
  have k2 := (updReview_keeps (updRating (backfill m r) r) r).2.2.2
  set X := updReview (updRating (backfill m r) r) r with hX
  have hXlat : X.latitude = m.latitude := k2.1.trans (k1.1.trans kb.1)
  have hXlong : X.longitude = m.longitude := k2.2.trans (k1.2.trans kb.2)
  have hmX : Fld.tQ X.latitude = true → X.longitude ≠ Fld.absent := by
    rw [hXlat, hXlong]; exact hm
  obtain ⟨m4, h4, hLL4⟩ := updCoords_ok_of X r hr hmX
  refine ⟨updLastUpdated (updHours m4 r) r, (mergeStep_ok_iff m r _).mpr ⟨m4, h4, rfl⟩, ?_⟩
  have k4 := (updHours_keeps m4 r).2.2.2.2
  have k5 := (updLastUpdated_keeps (updHours m4 r) r).2.2.2.2
  rw [k5.1.trans k4.1, k5.2.trans k4.2]
  exact hLL4

theorem foldlM_total (rs : List Rec) :
    ∀ b : Rec, (∀ r ∈ rs, Fld.tQ r.latitude = true → r.longitude ≠ Fld.absent) →
    (Fld.tQ b.latitude = true → b.longitude ≠ Fld.absent) →
    ∃ m, rs.foldlM mergeStep b = .ok m ∧
      (Fld.tQ m.latitude = true → m.longitude ≠ Fld.absent) := by
  induction rs with
  | nil =>
    intro b _ hb
    exact ⟨b, by simp [List.foldlM_nil, pure, Except.pure], hb⟩
  | cons r tl ih =>
    intro b hrs hb
    obtain ⟨b1, hs, hLL1⟩ := mergeStep_total b r (hrs r (List.mem_cons_self r tl)) hb
    obtain ⟨m, hm, hLLm⟩ := ih b1 (fun x hx => hrs x (List.mem_cons_of_mem r hx)) hLL1
    refine ⟨m, ?_, hLLm⟩
    rw [List.foldlM_cons, hs]
    simpa [Except.bind, Bind.bind] using hm

/-- The field merge of a coordinate-disciplined nonempty group succeeds
and preserves the discipline. -/
theorem merge_ok_exists (r0 : Rec) (rest : List Rec)
    (h : ∀ r ∈ r0 :: rest, Fld.tQ r.latitude = true → r.longitude ≠ Fld.absent) :
    ∃ m, merge_restaurant_data (r0 :: rest) = .ok m ∧
      (Fld.tQ m.latitude = true → m.longitude ≠ Fld.absent) := by
  match rest with
  | [] => exact ⟨r0, rfl, h r0 (List.mem_cons_self r0 [])⟩
  | r1 :: tl =>
    have hproj := mergeBase_proj r0 (r0 :: r1 :: tl)
    have hbase : Fld.tQ (mergeBase r0 (r0 :: r1 :: tl)).latitude = true →
        (mergeBase r0 (r0 :: r1 :: tl)).longitude ≠ Fld.absent := by
      rw [hproj.2.2.2.2.2.2.2.1, hproj.2.2.2.2.2.2.2.2.1]
      exact h r0 (List.mem_cons_self r0 _)
    obtain ⟨m, hm, hLL⟩ := foldlM_total (r1 :: tl) (mergeBase r0 (r0 :: r1 :: tl))
      (fun x hx => h x (List.mem_cons_of_mem r0 hx)) hbase
    exact ⟨m, hm, hLL⟩

/-- Fields of a merged record that determine its grouping key. -/
theorem merge_ok_fields (r0 : Rec) (rest : List Rec) (m : Rec)
    (h : merge_restaurant_data (r0 :: rest) = .ok m) :
    m.place_id = r0.place_id ∧
    (Fld.tS r0.name = true → m.name = r0.name) ∧
    (Fld.tS r0.formatted_address = true → m.formatted_address = r0.formatted_address) ∧
    (m.combined_order = r0.combined_order ∨ ∃ co : Int, m.combined_order = Fld.val co) := by
  match rest with
  | [] =>
    have hm : m = r0 := by
      unfold merge_restaurant_data at h
      exact ((Except.ok.injEq _ _).mp h).symm ▸ rfl
    subst hm
    exact ⟨rfl, fun _ => rfl, fun _ => rfl, Or.inl rfl⟩
  | r1 :: tl =>
    have hfold : (r1 :: tl).foldlM mergeStep (mergeBase r0 (r0 :: r1 :: tl)) = .ok m := h
    have hproj := mergeBase_proj r0 (r0 :: r1 :: tl)
    have hk := foldlM_keeps _ _ m hfold
    have hna := foldlM_na _ _ m hfold
    refine ⟨hk.1.trans hproj.2.2.2.2.2.2.1, ?_, ?_, ?_⟩
    · intro ht
      have hb : Fld.tS (mergeBase r0 (r0 :: r1 :: tl)).name = true := by
        rw [hproj.2.2.2.2.1]; exact ht
      exact (hna.1 hb).trans hproj.2.2.2.2.1
    · intro ht
      have hb : Fld.tS (mergeBase r0 (r0 :: r1 :: tl)).formatted_address = true := by
        rw [hproj.2.2.2.2.2.1]; exact ht
      exact (hna.2 hb).trans hproj.2.2.2.2.2.1
    · right
      obtain ⟨co, hco⟩ := hproj.2.2.2.2.2.2.2.2.2.2
      exact ⟨co, hk.2.1.trans hco⟩

/-- A nonempty stripped lowering forces a stored nonempty string. -/
theorem tS_of_lowerStrip (f : Fld Str) (h : (lowerStrip f).isEmpty = false) :
    Fld.tS f = true := by
  match f with
  | Fld.absent => simp [lowerStrip, strOrEmpty, Fld.getPy, stripChars] at h
  | Fld.null => simp [lowerStrip, strOrEmpty, Fld.getPy, stripChars] at h
  | Fld.val [] => simp [lowerStrip, strOrEmpty, Fld.getPy, stripChars] at h
  | Fld.val (c :: t) => simp [Fld.tS, truthyStr, Fld.getPy]

/-- Key preservation: a usable head record passes its grouping key (and
usability) to the merged record. -/
theorem keyFn_eq_of_fields (r0 m : Rec) (hu : recUsable r0 = true)
    (hp : m.place_id = r0.place_id)
    (hn : Fld.tS r0.name = true → m.name = r0.name)
    (ha : Fld.tS r0.formatted_address = true → m.formatted_address = r0.formatted_address) :
    keyFn m = keyFn r0 ∧ recUsable m = true := by
  by_cases hpid : Fld.tS r0.place_id = true
  · have hmp : Fld.tS m.place_id = true := by rw [hp]; exact hpid
    constructor
    · unfold keyFn
      rw [if_pos hmp, if_pos hpid, hp]
    · unfold recUsable
      rw [hmp, Bool.true_or]
  · unfold recUsable at hu
    rw [Bool.or_eq_true] at hu
    rcases hu with hu | hu
    · exact absurd hu hpid
    · rw [Bool.and_eq_true, Bool.and_eq_true, Bool.and_eq_true] at hu
      obtain ⟨⟨⟨hn1, hn2⟩, ha1⟩, ha2⟩ := hu
      rw [Bool.not_eq_true'] at hn1 hn2 ha1 ha2
      have htn : Fld.tS r0.name = true := tS_of_lowerStrip _ hn2
      have hta : Fld.tS r0.formatted_address = true := tS_of_lowerStrip _ ha2
      have hmn := hn htn
      have hma := ha hta
      have hmp : Fld.tS m.place_id = false := by rw [hp]; exact Bool.eq_false_iff.mpr hpid
      constructor
      · unfold keyFn
        rw [if_neg (by rw [hmp]; simp), if_neg hpid, hmn, hma]
      · unfold recUsable
        rw [hmp, hmn, hma, hn1, hn2, ha1, ha2]
        rfl

/-! ### Group combined order -/

theorem truthyRanks_vals (get : Rec → Fld Int) (rs : List Rec) (n : Int)
    (h : n ∈ truthyRanks get rs) : n ≠ 0 := by
  unfold truthyRanks at h
  obtain ⟨r, _, hr⟩ := List.mem_filterMap.mp h
  revert hr
  cases (get r).getPy none with
  | none => simp
  | some v =>
    by_cases hv : v = 0
    · simp [hv]
    · simp only [if_neg hv, Option.some.injEq]
      intro h'
      rw [← h']
      exact hv

theorem truthyRanks_ne_nil (get : Rec → Fld Int) (rs : List Rec) (r : Rec)
    (hr : r ∈ rs) (ht : Fld.tI (get r) = true) : truthyRanks get rs ≠ [] := by
  obtain ⟨n, hn, hn0⟩ := (tI_iff (get r)).mp ht
  have hmem : n ∈ truthyRanks get rs := by
    refine List.mem_filterMap.mpr ⟨r, hr, ?_⟩
    show (match (get r).getPy none with
      | some n => if n = 0 then none else some n
      | none => none) = some n
    rw [hn]
    simp [hn0]
  intro hnil
  rw [hnil] at hmem
  exact List.not_mem_nil n hmem

theorem truthyRanks_perm (get : Rec → Fld Int) {recs1 recs2 : List Rec}
    (h : recs1.Perm recs2) : (truthyRanks get recs1).Perm (truthyRanks get recs2) := by
  unfold truthyRanks
  exact h.filterMap _

/-- The rank entries of the merge base, as functions of the group. -/
theorem mergeBase_ranks (r0 : Rec) (rs : List Rec) :
    (mergeBase r0 rs).nyt_rank
        = (match truthyRanks (fun r => r.nyt_rank) rs with
           | [] => r0.nyt_rank
           | x :: xs => Fld.val (minInt x xs)) ∧
    (mergeBase r0 rs).nym_rank
        = (match truthyRanks (fun r => r.nym_rank) rs with
           | [] => r0.nym_rank
           | x :: xs => Fld.val (minInt x xs)) := by
  unfold mergeBase
  cases truthyRanks (fun r => r.nyt_rank) rs <;>
    cases truthyRanks (fun r => r.nym_rank) rs <;> exact ⟨rfl, rfl⟩

/-- The combined order the merge stores, as a function of the group
alone. -/
theorem mergeBase_combined (r0 : Rec) (rest : List Rec) :
    (mergeBase r0 (r0 :: rest)).combined_order
      = Fld.val (groupRankOrder (r0 :: rest)) := by
  obtain ⟨hnyt, hnym⟩ := mergeBase_ranks r0 (r0 :: rest)
  have hco : (mergeBase r0 (r0 :: rest)).combined_order
      = Fld.val (dedupCombinedOrder (mergeBase r0 (r0 :: rest))) := by
    unfold mergeBase
    cases truthyRanks (fun r => r.nyt_rank) (r0 :: rest) <;>
      cases truthyRanks (fun r => r.nym_rank) (r0 :: rest) <;> rfl
  rw [hco]
  congr 1
  unfold dedupCombinedOrder groupRankOrder
  rw [hnyt, hnym]
  cases hN : truthyRanks (fun r => r.nyt_rank) (r0 :: rest) with
  | cons x xs =>
    have hne : minInt x xs ≠ 0 :=
      truthyRanks_vals _ (r0 :: rest) _ (hN ▸ minInt_mem x xs)
    rw [if_pos (show Fld.tI (Fld.val (minInt x xs)) = true by
      simp [Fld.tI, truthyInt, Fld.getPy, hne])]
    rfl
  | nil =>
    have hfalse : Fld.tI r0.nyt_rank = false := by
      by_contra hc
      exact truthyRanks_ne_nil _ (r0 :: rest) r0 (List.mem_cons_self r0 rest)
        (Bool.not_eq_false _ ▸ hc) hN
    rw [if_neg (show ¬(Fld.tI r0.nyt_rank = true) by simp [hfalse])]
    cases hM : truthyRanks (fun r => r.nym_rank) (r0 :: rest) with
    | cons y ys =>
      have hne : minInt y ys ≠ 0 :=
        truthyRanks_vals _ (r0 :: rest) _ (hM ▸ minInt_mem y ys)
      rw [if_pos (show Fld.tI (Fld.val (minInt y ys)) = true by
        simp [Fld.tI, truthyInt, Fld.getPy, hne])]
      rfl
    | nil =>
      have hfalse2 : Fld.tI r0.nym_rank = false := by
        by_contra hc
        exact truthyRanks_ne_nil _ (r0 :: rest) r0 (List.mem_cons_self r0 rest)
          (Bool.not_eq_false _ ▸ hc) hM
      rw [if_neg (show ¬(Fld.tI r0.nym_rank = true) by simp [hfalse2])]

theorem groupRankOrder_perm {recs1 recs2 : List Rec} (h : recs1.Perm recs2) :
    groupRankOrder recs1 = groupRankOrder recs2 := by
  have hN := truthyRanks_perm (fun r => r.nyt_rank) h
  have hM := truthyRanks_perm (fun r => r.nym_rank) h
  unfold groupRankOrder
  cases h1 : truthyRanks (fun r => r.nyt_rank) recs1 with
  | cons x xs =>
    rw [h1] at hN
    cases h2 : truthyRanks (fun r => r.nyt_rank) recs2 with
    | nil =>
      rw [h2] at hN
      exact absurd (List.perm_nil.mp hN) (by simp)
    | cons y ys =>
      rw [h2] at hN
      show minInt x xs = minInt y ys
      exact minInt_perm hN
  | nil =>
    rw [h1] at hN
    cases h2 : truthyRanks (fun r => r.nyt_rank) recs2 with
    | cons y ys =>
      rw [h2] at hN
      exact absurd (List.perm_nil.mp hN.symm) (by simp)
    | nil =>
      cases h3 : truthyRanks (fun r => r.nym_rank) recs1 with
      | cons x xs =>
        rw [h3] at hM
        cases h4 : truthyRanks (fun r => r.nym_rank) recs2 with
        | nil =>
          rw [h4] at hM
          exact absurd (List.perm_nil.mp hM) (by simp)
        | cons y ys =>
          rw [h4] at hM
          show 100 + minInt x xs = 100 + minInt y ys
          rw [minInt_perm hM]
      | nil =>
        rw [h3] at hM
        cases h4 : truthyRanks (fun r => r.nym_rank) recs2 with
        | cons y ys =>
          rw [h4] at hM
          exact absurd (List.perm_nil.mp hM.symm) (by simp)
        | nil => rfl

theorem groupSortKey_perm {recs1 recs2 : List Rec} (h : recs1.Perm recs2) :
    groupSortKey recs1 = groupSortKey recs2 := by
  unfold groupSortKey
  rw [h.length_eq]
  by_cases hlen : 2 ≤ recs2.length
  · rw [if_pos hlen, if_pos hlen, groupRankOrder_perm h]
  · rw [if_neg hlen, if_neg hlen]
    match recs2, hlen with
    | [], _ =>
      rw [List.perm_nil.mp h]
    | [r], _ =>
      rw [List.perm_singleton.mp h]
    | a :: b :: t, hl => exact absurd (by simp [Nat.le_add_left]) hl

/-! ### Deduplicator decomposition -/

theorem sortByCO_ok_inv (l out : List Rec) (h : sortByCO l = .ok out) :
    out = List.insertionSort coLe l := by
  unfold sortByCO at h
  split at h
  · cases h
  · cases h; rfl

theorem sortByCO_ok_of (l : List Rec)
    (h : ∀ r ∈ l, (r.combined_order.getPy (some 999)).isNone = false) :
    sortByCO l = .ok (List.insertionSort coLe l) := by
  unfold sortByCO
  rw [if_neg]
  intro hc
  rw [Bool.and_eq_true] at hc
  obtain ⟨r, hr, hrn⟩ := List.any_eq_true.mp hc.2
  rw [h r hr] at hrn
  cases hrn

theorem dedup_ok_inv (l : List Rec) (out : List Rec) (dups : List DupEntry)
    (h : deduplicate_restaurants l = .ok (out, dups)) :
    l.any keyCrashes = false ∧
    ∃ es, mapE emitGroup (groupsBy l) = .ok es ∧ sortByCO es = .ok out ∧
      dups = ((groupsBy l).filter (fun g => 2 ≤ g.2.length)).map
        (fun g => DupEntry.mk g.1 g.2.length (g.2.map (fun r => r.name.getPy none))) := by
  unfold deduplicate_restaurants at h
  split at h
  · cases h
  case isFalse hcr =>
    refine ⟨Bool.eq_false_iff.mpr hcr, ?_⟩
    cases hes : mapE emitGroup (groupsBy l) with
    | error e =>
      simp [hes, Except.bind, Bind.bind] at h
    | ok es =>
      simp only [hes, Except.bind, Bind.bind] at h
      cases hs : sortByCO es with
      | error e =>
        simp [hs] at h
      | ok sorted =>
        simp only [hs, Except.ok.injEq, Prod.mk.injEq] at h
        exact ⟨es, rfl, h.1 ▸ hs, h.2.symm⟩

/-- Construct a successful deduplication from per-group success of the
emit step and absence of crashes and None sort keys. -/
theorem dedup_ok_of (l : List Rec) (es : List Rec)
    (hcr : l.any keyCrashes = false)
    (hes : mapE emitGroup (groupsBy l) = .ok es)
    (hnn : ∀ r ∈ es, (r.combined_order.getPy (some 999)).isNone = false) :
    deduplicate_restaurants l = .ok (List.insertionSort coLe es,
      ((groupsBy l).filter (fun g => 2 ≤ g.2.length)).map
        (fun g => DupEntry.mk g.1 g.2.length (g.2.map (fun r => r.name.getPy none)))) := by
  unfold deduplicate_restaurants
  rw [if_neg (by rw [hcr]; simp)]
  simp only [hes, Except.bind, Bind.bind, sortByCO_ok_of es hnn]

/-- What a group emits: the single record of a singleton group, or the
successful merge of a larger group. -/
theorem emitGroup_ok_single (k : Str) (r : Rec) :
    emitGroup (k, [r]) = .ok r := by
  unfold emitGroup
  rw [if_neg (by simp)]

theorem emitGroup_ok_coKey (k : Str) (recs : List Rec) (e : Rec)
    (h : emitGroup (k, recs) = .ok e) : coKeyD e = groupSortKey recs := by
  unfold emitGroup at h
  unfold groupSortKey
  by_cases h2 : 2 ≤ recs.length
  · rw [if_pos h2] at h
    rw [if_pos h2]
    match recs, h2 with
    | r0 :: r1 :: tl, _ =>
      have hfold : (r1 :: tl).foldlM mergeStep (mergeBase r0 (r0 :: r1 :: tl)) = .ok e := h
      have hkeep := (foldlM_keeps _ _ e hfold).2.1
      have hcb := mergeBase_combined r0 (r1 :: tl)
      unfold coKeyD
      rw [hkeep, hcb]
      rfl
  · rw [if_neg h2] at h
    rw [if_neg h2]
    match recs, h2 with
    | [], _ =>
      cases h
      rfl
    | [r], _ =>
      cases h
      rfl
    | a :: b :: t, hl => exact absurd (by simp [Nat.le_add_left]) hl

/-! ### Claim C8: amended theorem -/

theorem keyCrashes_of_usable (r : Rec) (h : recUsable r = true) :
    keyCrashes r = false := by
  unfold recUsable at h
  unfold keyCrashes
  rw [Bool.or_eq_true] at h
  rcases h with h | h
  · rw [h]; rfl
  · rw [Bool.and_eq_true, Bool.and_eq_true, Bool.and_eq_true] at h
    obtain ⟨⟨⟨hn1, _⟩, ha1⟩, _⟩ := h
    rw [Bool.not_eq_true'] at hn1 ha1
    rw [hn1, ha1]
    simp

theorem co_getPy_notNull (f : Fld Int) (h : f ≠ Fld.null) :
    (f.getPy (some 999)).isNone = false := by
  cases f with
  | absent => rfl
  | null => exact absurd rfl h
  | val v => rfl

theorem forall₂_mem_right {α β : Type} {P : α → β → Prop} {l : List α} {es : List β}
    (h : List.Forall₂ P l es) : ∀ e ∈ es, ∃ a ∈ l, P a e := by
  induction h with
  | nil => intro e he; cases he
  | cons hab _ ih =>
    intro e he
    rcases List.mem_cons.mp he with rfl | he'
    · exact ⟨_, List.mem_cons_self _ _, hab⟩
    · obtain ⟨a, ha, hPa⟩ := ih e he'
      exact ⟨a, List.mem_cons_of_mem _ ha, hPa⟩

theorem forall₂_map_eq {α β γ : Type} {P : α → β → Prop} {l : List α} {es : List β}
    (h : List.Forall₂ P l es) (f : β → γ) (g : α → γ)
    (hfg : ∀ a b, P a b → f b = g a) : es.map f = l.map g := by
  induction h with
  | nil => rfl
  | cons hab _ ih => simp only [List.map_cons, ih, hfg _ _ hab]

theorem mapE_singletons (l : List Rec) :
    mapE emitGroup (l.map (fun r => (keyFn r, [r]))) = .ok l := by
  induction l with
  | nil => rfl
  | cons r t ih =>
    show mapE emitGroup ((keyFn r, [r]) :: t.map (fun r => (keyFn r, [r]))) = .ok (r :: t)
    unfold mapE
    rw [emitGroup_ok_single, ih]

/-- C8 amended: on records that each carry a truthy place_id or a non-null
name and address that survive lowercasing and stripping (with no null
combined_order and coordinate discipline), deduplication is idempotent:
the first pass succeeds, and a second pass over its output returns exactly
that output with no duplicate groups. -/
theorem dedup_idempotent_on_identified_records (rs : List Rec)
    (h : ∀ r ∈ rs, recUsable r = true ∧ r.combined_order ≠ Fld.null ∧
      (Fld.tQ r.latitude = true → r.longitude ≠ Fld.absent)) :
    ∃ out dups, deduplicate_restaurants rs = .ok (out, dups) ∧
      deduplicate_restaurants out = .ok (out, []) := by
  have hcr : rs.any keyCrashes = false :=
    List.any_eq_false.mpr fun r hr => by rw [keyCrashes_of_usable r (h r hr).1]; simp
  -- each group emits successfully with the key and the record invariants
  have hgroups : ∀ g ∈ groupsBy rs, ∃ e, emitGroup g = .ok e ∧
      (keyFn e = g.1 ∧ recUsable e = true ∧ e.combined_order ≠ Fld.null ∧
        (Fld.tQ e.latitude = true → e.longitude ≠ Fld.absent)) := by
    rintro ⟨k, recs⟩ hg
    obtain ⟨hrecs, hkmem⟩ := groupsBy_mem rs k recs hg
    have hsub : ∀ r ∈ recs, r ∈ rs ∧ keyFn r = k := by
      intro r hr
      rw [hrecs] at hr
      obtain ⟨hmem, hbeq⟩ := List.mem_filter.mp hr
      exact ⟨hmem, by simpa using hbeq⟩
    have hne : recs ≠ [] := hrecs ▸ filter_key_ne_nil rs k hkmem
    match hrecs2 : recs, hne with
    | [r], _ =>
      have hr := hsub r (List.mem_cons_self r [])
      exact ⟨r, emitGroup_ok_single k r,
        hr.2, (h r hr.1).1, (h r hr.1).2.1, (h r hr.1).2.2⟩
    | r0 :: r1 :: tl, _ =>
      obtain ⟨m, hok, hLL⟩ := merge_ok_exists r0 (r1 :: tl)
        (fun x hx => (h x (hsub x hx).1).2.2)
      have hf := merge_ok_fields r0 (r1 :: tl) m hok
      have hr0 := hsub r0 (List.mem_cons_self r0 _)
      have hu0 := (h r0 hr0.1).1
      obtain ⟨hkm, hum⟩ := keyFn_eq_of_fields r0 m hu0 hf.1 hf.2.1 hf.2.2.1
      refine ⟨m, ?_, hkm.trans hr0.2, hum, ?_, hLL⟩
      · unfold emitGroup
        rw [if_pos (by simp)]
        exact hok
      · rcases hf.2.2.2 with hco | ⟨co, hco⟩
        · rw [hco]; exact (h r0 hr0.1).2.1
        · rw [hco]; simp
  obtain ⟨es, hes, hF⟩ := mapE_ok_of_forall emitGroup (groupsBy rs) _ hgroups
  have hesProps : ∀ e ∈ es, recUsable e = true ∧ e.combined_order ≠ Fld.null ∧
      (Fld.tQ e.latitude = true → e.longitude ≠ Fld.absent) := by
    intro e he
    obtain ⟨g, _, hP⟩ := forall₂_mem_right hF e he
    exact hP.2
  have hkeys : es.map keyFn = (groupsBy rs).map Prod.fst :=
    forall₂_map_eq hF keyFn Prod.fst fun a b hP => hP.1
  have hnodup : (es.map keyFn).Nodup := by
    rw [hkeys, groupsBy_fst]
    exact uniqKeys_nodup _
  have hnn : ∀ e ∈ es, (e.combined_order.getPy (some 999)).isNone = false :=
    fun e he => co_getPy_notNull _ (hesProps e he).2.1
  have hpass1 := dedup_ok_of rs es hcr hes hnn
  set out := List.insertionSort coLe es with hout
  have hperm : out.Perm es := List.perm_insertionSort coLe es
  have houtProps : ∀ r ∈ out, recUsable r = true ∧ r.combined_order ≠ Fld.null ∧
      (Fld.tQ r.latitude = true → r.longitude ≠ Fld.absent) :=
    fun r hr => hesProps r (hperm.mem_iff.mp hr)
  have houtNodup : (out.map keyFn).Nodup :=
    ((hperm.map keyFn).nodup_iff).mpr hnodup
  -- second pass
  have hcr2 : out.any keyCrashes = false :=
    List.any_eq_false.mpr fun r hr => by rw [keyCrashes_of_usable r (houtProps r hr).1]; simp
  have hg2 : groupsBy out = out.map (fun r => (keyFn r, [r])) :=
    groupsBy_of_nodup out houtNodup
  have hes2 : mapE emitGroup (groupsBy out) = .ok out := by
    rw [hg2]; exact mapE_singletons out
  have hnn2 : ∀ r ∈ out, (r.combined_order.getPy (some 999)).isNone = false :=
    fun r hr => co_getPy_notNull _ (houtProps r hr).2.1
  have hpass2 := dedup_ok_of out out hcr2 hes2 hnn2
  have hsorted : List.Sorted coLe out := List.sorted_insertionSort coLe es
  have hsortid : List.insertionSort coLe out = out := hsorted.insertionSort_eq
  have hdups2 : ((groupsBy out).filter (fun g => 2 ≤ g.2.length)).map
      (fun g => DupEntry.mk g.1 g.2.length (g.2.map (fun r => r.name.getPy none))) = [] := by
    rw [hg2]
    have : (out.map (fun r => (keyFn r, [r]))).filter (fun g => 2 ≤ g.2.length) = [] := by
      rw [List.filter_eq_nil_iff]
      intro g hg
      obtain ⟨r, _, rfl⟩ := List.mem_map.mp hg
      simp
    rw [this]
    rfl
  refine ⟨out, _, hpass1, ?_⟩
  rw [hpass2, hsortid, hdups2]

/-- Witness for the amended C8 theorem at a two-record input with distinct
place identifiers. -/
theorem dedup_idempotent_on_identified_records_holds :
    ∃ out dups, deduplicate_restaurants [c10X, c10Y] = .ok (out, dups) ∧
      deduplicate_restaurants out = .ok (out, []) :=
  dedup_idempotent_on_identified_records [c10X, c10Y] (by decide)

/-! ### Claim C10 -/

/-- C10: the deduplicator sorts its output ascending by each record's
combined_order value (999 for a missing entry), and the output order does
not depend on the input order: permuting the input leaves the sequence of
sort keys of the output unchanged (proved without even needing the
distinct-keys proviso the claim allows). -/
theorem dedup_sorted_and_input_order_irrelevant
    (rs1 rs2 out1 out2 : List Rec) (d1 d2 : List DupEntry)
    (hperm : rs1.Perm rs2)
    (h1 : deduplicate_restaurants rs1 = .ok (out1, d1))
    (h2 : deduplicate_restaurants rs2 = .ok (out2, d2)) :
    List.Sorted coLe out1 ∧ List.Sorted coLe out2 ∧
      out1.map coKeyD = out2.map coKeyD := by
  obtain ⟨_, es1, hes1, hs1, _⟩ := dedup_ok_inv rs1 out1 d1 h1
  obtain ⟨_, es2, hes2, hs2, _⟩ := dedup_ok_inv rs2 out2 d2 h2
  have ho1 : out1 = List.insertionSort coLe es1 := sortByCO_ok_inv es1 out1 hs1
  have ho2 : out2 = List.insertionSort coLe es2 := sortByCO_ok_inv es2 out2 hs2
  have hsort1 : List.Sorted coLe out1 := ho1 ▸ List.sorted_insertionSort coLe es1
  have hsort2 : List.Sorted coLe out2 := ho2 ▸ List.sorted_insertionSort coLe es2
  refine ⟨hsort1, hsort2, ?_⟩
  have hF1 := (mapE_ok_iff emitGroup (groupsBy rs1) es1).mp hes1
  have hF2 := (mapE_ok_iff emitGroup (groupsBy rs2) es2).mp hes2
  have hmap1 : es1.map coKeyD = (groupsBy rs1).map (fun g => groupSortKey g.2) :=
    forall₂_map_eq hF1 coKeyD (fun g => groupSortKey g.2)
      (fun g e hP => emitGroup_ok_coKey g.1 g.2 e hP)
  have hmap2 : es2.map coKeyD = (groupsBy rs2).map (fun g => groupSortKey g.2) :=
    forall₂_map_eq hF2 coKeyD (fun g => groupSortKey g.2)
      (fun g e hP => emitGroup_ok_coKey g.1 g.2 e hP)
  have hgm1 : (groupsBy rs1).map (fun g => groupSortKey g.2)
      = (uniqKeys (rs1.map keyFn)).map
          (fun k => groupSortKey (rs1.filter (fun r => keyFn r == k))) := by
    unfold groupsBy
    rw [List.map_map]
    rfl
  have hgm2 : (groupsBy rs2).map (fun g => groupSortKey g.2)
      = (uniqKeys (rs2.map keyFn)).map
          (fun k => groupSortKey (rs2.filter (fun r => keyFn r == k))) := by
    unfold groupsBy
    rw [List.map_map]
    rfl
  have hperm_uniq : (uniqKeys (rs1.map keyFn)).Perm (uniqKeys (rs2.map keyFn)) :=
    uniqKeys_perm (hperm.map keyFn)
  have hkeyperm : (es1.map coKeyD).Perm (es2.map coKeyD) := by
    rw [hmap1, hmap2, hgm1, hgm2]
    have hstep := hperm_uniq.map
      (fun k => groupSortKey (rs1.filter (fun r => keyFn r == k)))
    have hcongr : (uniqKeys (rs2.map keyFn)).map
          (fun k => groupSortKey (rs1.filter (fun r => keyFn r == k)))
        = (uniqKeys (rs2.map keyFn)).map
          (fun k => groupSortKey (rs2.filter (fun r => keyFn r == k))) :=
      List.map_congr_left fun k _ => groupSortKey_perm (hperm.filter _)
    exact hcongr ▸ hstep
  have hfinal : (out1.map coKeyD).Perm (out2.map coKeyD) := by
    rw [ho1, ho2]
    exact (((List.perm_insertionSort coLe es1).map coKeyD).trans hkeyperm).trans
      ((List.perm_insertionSort coLe es2).map coKeyD).symm
  have hsk1 : (out1.map coKeyD).Sorted (· ≤ ·) := List.pairwise_map.mpr hsort1
  have hsk2 : (out2.map coKeyD).Sorted (· ≤ ·) := List.pairwise_map.mpr hsort2
  exact List.eq_of_perm_of_sorted hfinal hsk1 hsk2

/-- Witness for C10 at a concrete pair of permuted two-record inputs. -/
theorem dedup_sorted_and_input_order_irrelevant_holds :
    List.Sorted coLe [c10X, c10Y] ∧ List.Sorted coLe [c10X, c10Y] ∧
      [c10X, c10Y].map coKeyD = [c10X, c10Y].map coKeyD := by
  refine dedup_sorted_and_input_order_irrelevant [c10Y, c10X] [c10X, c10Y]
    [c10X, c10Y] [c10X, c10Y] [] [] (List.Perm.swap c10X c10Y []) ?_ ?_
  · decide
  · decide

/-! ### Stability of the normalizers after two passes (C7) -/

theorem lowerChar_cases (c : Char) :
    lowerChar c = c ∨ lowerChar c ∈ ['a', 'b', 'c', 'd', 'e', 'f', 'g', 'h', 'i', 'j', 'k',
      'l', 'm', 'n', 'o', 'p', 'q', 'r', 's', 't', 'u', 'v', 'w', 'x', 'y', 'z'] := by
  unfold lowerChar
  split <;> first | exact Or.inl rfl | exact Or.inr (by decide)

theorem lowerChar_of_lower (c : Char)
    (h : c ∈ ['a', 'b', 'c', 'd', 'e', 'f', 'g', 'h', 'i', 'j', 'k', 'l', 'm', 'n', 'o',
      'p', 'q', 'r', 's', 't', 'u', 'v', 'w', 'x', 'y', 'z']) : lowerChar c = c := by
  fin_cases h <;> rfl

theorem lowerChar_idem (c : Char) : lowerChar (lowerChar c) = lowerChar c := by
  rcases lowerChar_cases c with h | h
  · rw [h]; exact h
  · exact lowerChar_of_lower _ h

theorem isSpaceChar_lowerChar (c : Char) : isSpaceChar (lowerChar c) = isSpaceChar c := by
  unfold lowerChar
  split <;> rfl

theorem isWordChar_lowerChar (c : Char) : isWordChar (lowerChar c) = isWordChar c := by
  unfold lowerChar
  split <;> rfl

theorem isWS_lowerChar (c : Char) : isWS (lowerChar c) = isWS c := by
  unfold isWS
  rw [isSpaceChar_lowerChar, isWordChar_lowerChar]

-- all-predicate utilities

theorem all_of_sublist {p : Char → Bool} {l1 l2 : Str} (h : l1.Sublist l2)
    (ha : l2.all p = true) : l1.all p = true := by
  rw [List.all_eq_true] at *
  exact fun c hc => ha c (h.mem hc)

theorem all_stripChars {p : Char → Bool} {l : Str} (h : l.all p = true) :
    (stripChars l).all p = true := by
  unfold stripChars
  rw [List.all_reverse]
  refine all_of_sublist (List.dropWhile_sublist _) ?_
  rw [List.all_reverse]
  exact all_of_sublist (List.dropWhile_sublist _) h

theorem mem_stripChars {c : Char} {l : Str} (h : c ∈ stripChars l) : c ∈ l := by
  unfold stripChars at h
  rw [List.mem_reverse] at h
  have h2 := (List.dropWhile_sublist _).mem h
  rw [List.mem_reverse] at h2
  exact (List.dropWhile_sublist _).mem h2

theorem map_lowerChar_eq_self {l : Str} (h : allLower l = true) : l.map lowerChar = l := by
  induction l with
  | nil => rfl
  | cons c t ih =>
    rw [allLower, List.all_cons, Bool.and_eq_true] at h
    rw [List.map_cons, eq_of_beq h.1, ih h.2]

theorem allLower_map (l : Str) : allLower (l.map lowerChar) = true := by
  rw [allLower, List.all_eq_true]
  intro c hc
  rw [List.mem_map] at hc
  obtain ⟨d, _, rfl⟩ := hc
  exact beq_iff_eq.mpr (lowerChar_idem d)

-- strip lemmas

theorem dropWhile_eq_self_of_headSpace {l : Str} (h : headSpace l = false) :
    l.dropWhile isSpaceChar = l := by
  cases l with
  | nil => rfl
  | cons c t =>
    rw [List.dropWhile_cons, if_neg]
    rw [headSpace] at h
    simp only [List.head?] at h
    rw [h]
    exact Bool.false_ne_true

theorem headSpace_reverse (l : Str) : headSpace l.reverse = lastSpace l := by
  rw [headSpace, lastSpace, List.head?_reverse]

theorem lastSpace_reverse (l : Str) : lastSpace l.reverse = headSpace l := by
  rw [headSpace, lastSpace, List.getLast?_reverse]

theorem stripped_iff {l : Str} :
    stripped l = true ↔ headSpace l = false ∧ lastSpace l = false := by
  rw [stripped, Bool.and_eq_true, Bool.not_eq_true', Bool.not_eq_true']

theorem stripChars_eq_self {l : Str} (h : stripped l = true) : stripChars l = l := by
  obtain ⟨h1, h2⟩ := stripped_iff.mp h
  rw [stripChars, dropWhile_eq_self_of_headSpace h1,
    dropWhile_eq_self_of_headSpace (headSpace_reverse l ▸ h2), List.reverse_reverse]

theorem headSpace_dropWhile (l : Str) : headSpace (l.dropWhile isSpaceChar) = false := by
  induction l with
  | nil => rfl
  | cons c t ih =>
    rw [List.dropWhile_cons]
    cases h : isSpaceChar c with
    | true => rw [if_pos rfl]; exact ih
    | false => rw [if_neg (by simp [h])]; rw [headSpace]; simpa

theorem getLast?_of_suffix {l1 l2 : Str} (h : l1 <:+ l2) (hne : l1 ≠ []) :
    l1.getLast? = l2.getLast? := by
  obtain ⟨t, rfl⟩ := h
  rw [List.getLast?_append]
  cases hl : l1.getLast? with
  | none => exact absurd (List.getLast?_eq_none_iff.mp hl) hne
  | some a => rfl

theorem stripped_stripChars (l : Str) : stripped (stripChars l) = true := by
  rw [stripped_iff]
  constructor
  · show headSpace ((((l.dropWhile isSpaceChar).reverse.dropWhile isSpaceChar)).reverse) = false
    cases hB : (l.dropWhile isSpaceChar).reverse.dropWhile isSpaceChar with
    | nil => rfl
    | cons b B' =>
      rw [headSpace_reverse, lastSpace]
      rw [getLast?_of_suffix (hB ▸ List.dropWhile_suffix _) (by simp), List.getLast?_reverse]
      have := headSpace_dropWhile l
      rw [headSpace] at this
      exact this
  · show lastSpace ((((l.dropWhile isSpaceChar).reverse.dropWhile isSpaceChar)).reverse) = false
    rw [lastSpace_reverse]
    exact headSpace_dropWhile _

-- collapse lemmas

theorem eq_space_of_blank {c : Char} (hb : spaceBlank c = true) (hs : isSpaceChar c = true) :
    c = ' ' := by
  rw [spaceBlank, hs] at hb
  simpa using hb

theorem headSpace_cons (c : Char) (t : Str) : headSpace (c :: t) = isSpaceChar c := rfl

theorem lastSpace_cons_cons (a b : Char) (t : Str) :
    lastSpace (a :: b :: t) = lastSpace (b :: t) := by
  rw [lastSpace, lastSpace, List.getLast?_cons_cons]

theorem lastSpace_cons_of_ne_nil {d : Char} {X : Str} (h : X ≠ []) :
    lastSpace (d :: X) = lastSpace X := by
  cases X with
  | nil => exact absurd rfl h
  | cons b t => exact lastSpace_cons_cons d b t

theorem head?_space {X : Str} {y : Char} (hy : y ∈ X.head?) : isSpaceChar y = headSpace X := by
  rw [headSpace, Option.mem_def.mp hy]

theorem collapseWS_eq_self {l : Str} (h1 : noTwoSpaces l) (h2 : allBlank l = true) :
    collapseWS l = l := by
  induction l with
  | nil => rfl
  | cons c1 t ih =>
    cases t with
    | nil =>
      show (if isSpaceChar c1 then [' '] else [c1]) = [c1]
      cases hc : isSpaceChar c1 with
      | false => rw [if_neg (by simp [hc])]
      | true =>
        rw [if_pos (by simp [hc])]
        have hb : spaceBlank c1 = true := by
          rw [allBlank, List.all_cons, Bool.and_eq_true] at h2
          exact h2.1
        rw [eq_space_of_blank hb hc]
    | cons c2 rest =>
      show (if isSpaceChar c1 && isSpaceChar c2 then collapseWS (c2 :: rest)
        else (if isSpaceChar c1 then ' ' else c1) :: collapseWS (c2 :: rest)) = c1 :: c2 :: rest
      have hR := List.chain'_cons'.mp h1
      have hnot : ¬(isSpaceChar c1 = true ∧ isSpaceChar c2 = true) := hR.1 c2 rfl
      have h2' : allBlank (c2 :: rest) = true := by
        rw [allBlank, List.all_cons, Bool.and_eq_true] at h2
        exact h2.2
      rw [if_neg (by rw [Bool.and_eq_true]; exact hnot), ih hR.2 h2']
      congr 1
      cases hc : isSpaceChar c1 with
      | false => rw [if_neg (by simp [hc])]
      | true =>
        rw [if_pos (by simp [hc])]
        have hb : spaceBlank c1 = true := by
          rw [allBlank, List.all_cons, Bool.and_eq_true] at h2
          exact h2.1
        rw [eq_space_of_blank hb hc]

theorem collapseWS_mem {c : Char} {l : Str} (h : c ∈ collapseWS l) :
    (c ∈ l ∧ isSpaceChar c = false) ∨ c = ' ' := by
  induction l with
  | nil => cases h
  | cons c1 t ih =>
    cases t with
    | nil =>
      have hre : collapseWS [c1] = if isSpaceChar c1 then [' '] else [c1] := rfl
      rw [hre] at h
      cases hc : isSpaceChar c1 with
      | true =>
        rw [if_pos (by simp [hc])] at h
        exact Or.inr (List.mem_singleton.mp h)
      | false =>
        rw [if_neg (by simp [hc])] at h
        exact Or.inl ⟨List.mem_singleton.mp h ▸ List.mem_cons_self c1 [],
          List.mem_singleton.mp h ▸ hc⟩
    | cons c2 rest =>
      have hre : collapseWS (c1 :: c2 :: rest) =
          if isSpaceChar c1 && isSpaceChar c2 then collapseWS (c2 :: rest)
          else (if isSpaceChar c1 then ' ' else c1) :: collapseWS (c2 :: rest) := rfl
      rw [hre] at h
      cases hb : (isSpaceChar c1 && isSpaceChar c2) with
      | true =>
        rw [if_pos (by rw [hb])] at h
        rcases ih h with ⟨hm, hs⟩ | hc
        · exact Or.inl ⟨List.mem_cons_of_mem c1 hm, hs⟩
        · exact Or.inr hc
      | false =>
        rw [if_neg (by simp [hb])] at h
        rcases List.mem_cons.mp h with hd | ht
        · cases hc1 : isSpaceChar c1 with
          | true => rw [hd, if_pos (by simp [hc1])]; exact Or.inr rfl
          | false =>
            rw [hd, if_neg (by simp [hc1])]
            exact Or.inl ⟨List.mem_cons_self c1 _, hc1⟩
        · rcases ih ht with ⟨hm, hs⟩ | hc
          · exact Or.inl ⟨List.mem_cons_of_mem c1 hm, hs⟩
          · exact Or.inr hc

theorem allBlank_collapseWS (l : Str) : allBlank (collapseWS l) = true := by
  rw [allBlank, List.all_eq_true]
  intro c hc
  rcases collapseWS_mem hc with ⟨_, hs⟩ | rfl
  · rw [spaceBlank, hs]; rfl
  · decide

theorem collapseWS_ne_nil {l : Str} (h : l ≠ []) : collapseWS l ≠ [] := by
  induction l with
  | nil => exact absurd rfl h
  | cons c1 t ih =>
    cases t with
    | nil =>
      show (if isSpaceChar c1 then [' '] else [c1]) ≠ []
      split <;> exact List.cons_ne_nil _ _
    | cons c2 rest =>
      show (if isSpaceChar c1 && isSpaceChar c2 then collapseWS (c2 :: rest)
        else (if isSpaceChar c1 then ' ' else c1) :: collapseWS (c2 :: rest)) ≠ []
      split
      · exact ih (List.cons_ne_nil _ _)
      · exact List.cons_ne_nil _ _

theorem headSpace_collapseWS (l : Str) : headSpace (collapseWS l) = headSpace l := by
  induction l with
  | nil => rfl
  | cons c1 t ih =>
    cases t with
    | nil =>
      show headSpace (if isSpaceChar c1 then [' '] else [c1]) = headSpace [c1]
      cases hc : isSpaceChar c1 with
      | true => rw [if_pos (by simp [hc]), headSpace_cons, headSpace_cons, hc]; rfl
      | false => rw [if_neg (by simp [hc])]
    | cons c2 rest =>
      show headSpace (if isSpaceChar c1 && isSpaceChar c2 then collapseWS (c2 :: rest)
        else (if isSpaceChar c1 then ' ' else c1) :: collapseWS (c2 :: rest)) =
          headSpace (c1 :: c2 :: rest)
      cases hb : (isSpaceChar c1 && isSpaceChar c2) with
      | true =>
        rw [if_pos rfl]
        rw [Bool.and_eq_true] at hb
        rw [ih, headSpace_cons, headSpace_cons, hb.1, hb.2]
      | false =>
        rw [if_neg (by simp [hb]), headSpace_cons, headSpace_cons]
        cases hc : isSpaceChar c1 with
        | true => rw [if_pos (by simp [hc])]; rfl
        | false => rw [if_neg (by simp [hc]), hc]

theorem lastSpace_collapseWS (l : Str) : lastSpace (collapseWS l) = lastSpace l := by
  induction l with
  | nil => rfl
  | cons c1 t ih =>
    cases t with
    | nil =>
      show lastSpace (if isSpaceChar c1 then [' '] else [c1]) = lastSpace [c1]
      cases hc : isSpaceChar c1 with
      | true =>
        rw [if_pos (by simp [hc])]
        show lastSpace [' '] = lastSpace [c1]
        rw [lastSpace, lastSpace]
        simp only [List.getLast?_singleton]
        rw [hc]
        decide
      | false => rw [if_neg (by simp [hc])]
    | cons c2 rest =>
      show lastSpace (if isSpaceChar c1 && isSpaceChar c2 then collapseWS (c2 :: rest)
        else (if isSpaceChar c1 then ' ' else c1) :: collapseWS (c2 :: rest)) =
          lastSpace (c1 :: c2 :: rest)
      cases hb : (isSpaceChar c1 && isSpaceChar c2) with
      | true => rw [if_pos rfl, ih, lastSpace_cons_cons]
      | false =>
        rw [if_neg (by simp [hb]),
          lastSpace_cons_of_ne_nil (collapseWS_ne_nil (List.cons_ne_nil _ _)), ih,
          lastSpace_cons_cons]

theorem noTwoSpaces_collapseWS (l : Str) : noTwoSpaces (collapseWS l) := by
  induction l with
  | nil => exact List.chain'_nil
  | cons c1 t ih =>
    cases t with
    | nil =>
      show noTwoSpaces (if isSpaceChar c1 then [' '] else [c1])
      split <;> exact List.chain'_singleton _
    | cons c2 rest =>
      show noTwoSpaces (if isSpaceChar c1 && isSpaceChar c2 then collapseWS (c2 :: rest)
        else (if isSpaceChar c1 then ' ' else c1) :: collapseWS (c2 :: rest))
      cases hb : (isSpaceChar c1 && isSpaceChar c2) with
      | true => rw [if_pos rfl]; exact ih
      | false =>
        rw [if_neg (by simp [hb])]
        refine List.chain'_cons'.mpr ⟨?_, ih⟩
        intro y hy hcontra
        have hys : isSpaceChar y = headSpace (collapseWS (c2 :: rest)) := head?_space hy
        rw [headSpace_collapseWS, headSpace_cons] at hys
        cases hc1 : isSpaceChar c1 with
        | false =>
          rw [if_neg (by simp [hc1])] at hcontra
          rw [hc1] at hcontra
          exact Bool.false_ne_true hcontra.1
        | true =>
          have hc2 : isSpaceChar c2 = false := by
            cases h2 : isSpaceChar c2 with
            | false => rfl
            | true => rw [hc1, h2] at hb; cases hb
          rw [hc2] at hys
          rw [hys] at hcontra
          exact Bool.false_ne_true hcontra.2

-- word-character facts

theorem not_word_of_space {c : Char} (hs : isSpaceChar c = true) : isWordChar c = false := by
  rw [isSpaceChar] at hs
  simp only [Bool.or_eq_true, beq_iff_eq] at hs
  rcases hs with ((((rfl | rfl) | rfl) | rfl) | rfl) | rfl <;> decide

theorem space_eq_false_of_word {c : Char} (hw : isWordChar c = true) : isSpaceChar c = false := by
  cases hs : isSpaceChar c with
  | false => rfl
  | true => rw [not_word_of_space hs] at hw; cases hw

theorem isWS_of_word {c : Char} (hw : isWordChar c = true) : isWS c = true := by
  rw [isWS, hw]; rfl

theorem spaceBlank_of_word {c : Char} (hw : isWordChar c = true) : spaceBlank c = true := by
  rw [spaceBlank, space_eq_false_of_word hw]; rfl

-- substWord equations

theorem substWordAux_spec (pat rep : Str) :
    ∀ (l acc : Str), acc ≠ [] →
      substWordAux pat rep acc l =
        substWordRun pat rep (acc.reverse ++ l.takeWhile isWordChar) ++
          substWordAux pat rep [] (l.dropWhile isWordChar) := by
  intro l
  induction l with
  | nil =>
    intro acc hacc
    show (if acc.isEmpty then [] else substWordRun pat rep acc.reverse) = _
    rw [if_neg (by simpa using hacc)]
    show substWordRun pat rep acc.reverse =
      substWordRun pat rep (acc.reverse ++ []) ++ substWordAux pat rep [] []
    rw [List.append_nil]
    show substWordRun pat rep acc.reverse = substWordRun pat rep acc.reverse ++ []
    rw [List.append_nil]
  | cons c rest ih =>
    intro acc hacc
    show (if isWordChar c then substWordAux pat rep (c :: acc) rest
      else (if acc.isEmpty then [] else substWordRun pat rep acc.reverse) ++
        c :: substWordAux pat rep [] rest) = _
    cases hw : isWordChar c with
    | true =>
      rw [if_pos rfl, ih (c :: acc) (List.cons_ne_nil c acc), List.takeWhile_cons,
        List.dropWhile_cons, hw, if_pos rfl, if_pos rfl, List.reverse_cons,
        List.append_assoc, List.singleton_append]
    | false =>
      rw [if_neg (by simp), if_neg (by simpa using hacc), List.takeWhile_cons,
        List.dropWhile_cons, hw, if_neg (by simp), if_neg (by simp), List.append_nil]
      show substWordRun pat rep acc.reverse ++ c :: substWordAux pat rep [] rest =
        substWordRun pat rep acc.reverse ++
          (if isWordChar c then substWordAux pat rep [c] rest
            else (if (List.isEmpty []) then [] else substWordRun pat rep List.nil.reverse) ++
              c :: substWordAux pat rep [] rest)
      rw [if_neg (by rw [hw]; simp),
        if_pos (show List.isEmpty ([] : Str) = true from rfl), List.nil_append]

theorem substWord_nil (pat rep : Str) : substWord pat rep [] = [] := rfl

theorem substWord_cons_word {c : Char} (pat rep : Str) {rest : Str} (hw : isWordChar c = true) :
    substWord pat rep (c :: rest) =
      substWordRun pat rep (c :: rest.takeWhile isWordChar) ++
        substWord pat rep (rest.dropWhile isWordChar) := by
  show (if isWordChar c then substWordAux pat rep [c] rest
    else (if (List.isEmpty []) then [] else substWordRun pat rep List.nil.reverse) ++
      c :: substWordAux pat rep [] rest) = _
  rw [if_pos (by rw [hw]), substWordAux_spec pat rep rest [c] (List.cons_ne_nil c [])]
  rfl

theorem substWord_cons_nonword {c : Char} (pat rep : Str) {rest : Str}
    (hw : isWordChar c = false) :
    substWord pat rep (c :: rest) = c :: substWord pat rep rest := by
  show (if isWordChar c then substWordAux pat rep [c] rest
    else (if (List.isEmpty []) then [] else substWordRun pat rep List.nil.reverse) ++
      c :: substWordAux pat rep [] rest) = _
  rw [if_neg (by rw [hw]; simp),
    if_pos (show List.isEmpty ([] : Str) = true from rfl), List.nil_append]
  rfl

theorem word_split (c : Char) (rest : Str) :
    c :: rest = (c :: rest.takeWhile isWordChar) ++ rest.dropWhile isWordChar := by
  rw [List.cons_append, List.takeWhile_append_dropWhile]

-- custom induction principle following the word-run structure

theorem wordList_ind (motive : Str → Prop) (hnil : motive [])
    (hword : ∀ c rest, isWordChar c = true →
      motive (rest.dropWhile isWordChar) → motive (c :: rest))
    (hnon : ∀ c rest, isWordChar c = false → motive rest → motive (c :: rest)) :
    ∀ l, motive l := by
  have key : ∀ n (l : Str), l.length ≤ n → motive l := by
    intro n
    induction n with
    | zero =>
      intro l hl
      rw [List.eq_nil_of_length_eq_zero (Nat.le_zero.mp hl)]
      exact hnil
    | succ n ih =>
      intro l hl
      cases l with
      | nil => exact hnil
      | cons c rest =>
        have hr : rest.length ≤ n := Nat.succ_le_succ_iff.mp (by simpa using hl)
        cases hw : isWordChar c with
        | true =>
          exact hword c rest hw
            (ih _ (Nat.le_trans (List.dropWhile_sublist isWordChar).length_le hr))
        | false => exact hnon c rest hw (ih rest hr)
  exact fun l => key l.length l (Nat.le_refl _)

-- takeWhile and dropWhile over an all-satisfying prefix

theorem takeWhile_append_all {p : Char → Bool} {X S : Str} (hX : X.all p = true)
    (hS : S.takeWhile p = []) : (X ++ S).takeWhile p = X := by
  induction X with
  | nil => simpa using hS
  | cons x xs ih =>
    rw [List.all_cons, Bool.and_eq_true] at hX
    rw [List.cons_append, List.takeWhile_cons, hX.1, if_pos rfl, ih hX.2]

theorem dropWhile_append_all {p : Char → Bool} {X S : Str} (hX : X.all p = true) :
    (X ++ S).dropWhile p = S.dropWhile p := by
  induction X with
  | nil => rfl
  | cons x xs ih =>
    rw [List.all_cons, Bool.and_eq_true] at hX
    rw [List.cons_append, List.dropWhile_cons, hX.1, if_pos rfl, ih hX.2]

theorem dropWhile_head_false (p : Char → Bool) (l : Str) :
    l.dropWhile p = [] ∨ ∃ d t, l.dropWhile p = d :: t ∧ p d = false := by
  induction l with
  | nil => exact Or.inl rfl
  | cons c rest ih =>
    rw [List.dropWhile_cons]
    cases h : p c with
    | true => rw [if_pos rfl]; exact ih
    | false => exact Or.inr ⟨c, rest, by rw [if_neg (by simp)], h⟩

-- substWordRun facts

theorem substWordRun_ne_nil {pat rep run : Str} (hrep : rep ≠ []) (hrun : run ≠ []) :
    substWordRun pat rep run ≠ [] := by
  rw [substWordRun]
  split
  · exact hrep
  · exact hrun

theorem substWordRun_all {p : Char → Bool} {pat rep run : Str} (hrep : rep.all p = true)
    (hrun : run.all p = true) : (substWordRun pat rep run).all p = true := by
  rw [substWordRun]
  split
  · exact hrep
  · exact hrun

theorem mem_substWordRun {c : Char} {pat rep run : Str} (h : c ∈ substWordRun pat rep run) :
    c ∈ run ∨ c ∈ rep := by
  rw [substWordRun] at h
  split at h
  · exact Or.inr h
  · exact Or.inl h

-- substWord preservation lemmas

theorem mem_substWord (pat rep : Str) :
    ∀ l : Str, ∀ c : Char, c ∈ substWord pat rep l → c ∈ l ∨ c ∈ rep := by
  refine wordList_ind (fun l => ∀ c, c ∈ substWord pat rep l → c ∈ l ∨ c ∈ rep) ?_ ?_ ?_
  · intro c h
    rw [substWord_nil] at h
    cases h
  · intro c rest hw ih d hd
    rw [substWord_cons_word pat rep hw] at hd
    rcases List.mem_append.mp hd with hX | hS
    · rcases mem_substWordRun hX with hR | hrep
      · rcases List.mem_cons.mp hR with rfl | htk
        · exact Or.inl (List.mem_cons_self _ _)
        · exact Or.inl (List.mem_cons_of_mem c ((List.takeWhile_sublist _).mem htk))
      · exact Or.inr hrep
    · rcases ih d hS with hT | hrep
      · exact Or.inl (List.mem_cons_of_mem c ((List.dropWhile_sublist _).mem hT))
      · exact Or.inr hrep
  · intro c rest hw ih d hd
    rw [substWord_cons_nonword pat rep hw] at hd
    rcases List.mem_cons.mp hd with rfl | ht
    · exact Or.inl (List.mem_cons_self _ _)
    · rcases ih d ht with h1 | h2
      · exact Or.inl (List.mem_cons_of_mem c h1)
      · exact Or.inr h2

theorem all_substWord {p : Char → Bool} (pat : Str) {rep l : Str} (hl : l.all p = true)
    (hrep : rep.all p = true) : (substWord pat rep l).all p = true := by
  rw [List.all_eq_true] at *
  intro c hc
  rcases mem_substWord pat rep l c hc with h | h
  · exact hl c h
  · exact hrep c h

theorem substWord_ne_nil (pat : Str) {rep l : Str} (hrep : rep ≠ []) (hl : l ≠ []) :
    substWord pat rep l ≠ [] := by
  cases l with
  | nil => exact absurd rfl hl
  | cons c rest =>
    cases hw : isWordChar c with
    | true =>
      rw [substWord_cons_word pat rep hw]
      exact List.append_ne_nil_of_left_ne_nil
        (substWordRun_ne_nil hrep (List.cons_ne_nil _ _)) _
    | false =>
      rw [substWord_cons_nonword pat rep hw]
      exact List.cons_ne_nil _ _

theorem headSpace_append_of_ne_nil {X S : Str} (h : X ≠ []) :
    headSpace (X ++ S) = headSpace X := by
  cases X with
  | nil => exact absurd rfl h
  | cons x xs => rw [List.cons_append, headSpace_cons, headSpace_cons]

theorem headSpace_of_all_word {X : Str} (h : X.all isWordChar = true) :
    headSpace X = false := by
  cases X with
  | nil => rfl
  | cons x xs =>
    rw [List.all_cons, Bool.and_eq_true] at h
    rw [headSpace_cons, space_eq_false_of_word h.1]

theorem lastSpace_of_all_word {X : Str} (h : X.all isWordChar = true) :
    lastSpace X = false := by
  rw [lastSpace]
  cases hg : X.getLast? with
  | none => rfl
  | some d =>
    rw [List.all_eq_true] at h
    exact space_eq_false_of_word (h d (List.mem_of_mem_getLast? hg))

theorem lastSpace_append_of_ne_nil {X S : Str} (h : S ≠ []) :
    lastSpace (X ++ S) = lastSpace S := by
  rw [lastSpace, lastSpace, List.getLast?_append]
  cases hg : S.getLast? with
  | none => exact absurd (List.getLast?_eq_none_iff.mp hg) h
  | some a => rfl

theorem runAll_of_word {c : Char} (rest : Str) (hw : isWordChar c = true) :
    (c :: rest.takeWhile isWordChar).all isWordChar = true := by
  rw [List.all_cons, Bool.and_eq_true]
  exact ⟨hw, List.all_takeWhile⟩

theorem headSpace_substWord (pat : Str) {rep : Str} (l : Str) (hrep : rep ≠ [])
    (hrepw : rep.all isWordChar = true) :
    headSpace (substWord pat rep l) = headSpace l := by
  cases l with
  | nil => rfl
  | cons c rest =>
    cases hw : isWordChar c with
    | true =>
      rw [substWord_cons_word pat rep hw,
        headSpace_append_of_ne_nil (substWordRun_ne_nil hrep (List.cons_ne_nil _ _)),
        headSpace_of_all_word (substWordRun_all hrepw (runAll_of_word rest hw)), headSpace_cons,
        space_eq_false_of_word hw]
    | false => rw [substWord_cons_nonword pat rep hw, headSpace_cons, headSpace_cons]

theorem lastSpace_substWord (pat : Str) {rep : Str} (hrep : rep ≠ [])
    (hrepw : rep.all isWordChar = true) :
    ∀ l : Str, lastSpace (substWord pat rep l) = lastSpace l := by
  refine wordList_ind (fun l => lastSpace (substWord pat rep l) = lastSpace l) ?_ ?_ ?_
  · rfl
  · intro c rest hw ih
    rw [substWord_cons_word pat rep hw]
    rcases dropWhile_head_false isWordChar rest with hT | ⟨d, t, hT, _⟩
    · rw [hT, substWord_nil, List.append_nil,
        lastSpace_of_all_word (substWordRun_all hrepw (runAll_of_word rest hw))]
      conv_rhs => rw [word_split c rest, hT, List.append_nil]
      exact (lastSpace_of_all_word (runAll_of_word rest hw)).symm
    · rw [lastSpace_append_of_ne_nil (substWord_ne_nil pat hrep (hT ▸ List.cons_ne_nil d t)),
        ih]
      conv_rhs => rw [word_split c rest]
      rw [lastSpace_append_of_ne_nil (hT ▸ List.cons_ne_nil d t)]
  · intro c rest hw ih
    rw [substWord_cons_nonword pat rep hw]
    cases rest with
    | nil => rfl
    | cons r t =>
      rw [lastSpace_cons_of_ne_nil (substWord_ne_nil pat hrep (List.cons_ne_nil r t)), ih,
        lastSpace_cons_of_ne_nil (List.cons_ne_nil r t)]

theorem noTwoSpaces_of_all_word {X : Str} (h : X.all isWordChar = true) : noTwoSpaces X := by
  induction X with
  | nil => exact List.chain'_nil
  | cons x xs ih =>
    rw [List.all_cons, Bool.and_eq_true] at h
    refine List.chain'_cons'.mpr ⟨?_, ih h.2⟩
    intro y _ hc
    rw [space_eq_false_of_word h.1] at hc
    exact Bool.false_ne_true hc.1

theorem noTwoSpaces_substWord (pat : Str) {rep : Str} (hrep : rep ≠ [])
    (hrepw : rep.all isWordChar = true) :
    ∀ l : Str, noTwoSpaces l → noTwoSpaces (substWord pat rep l) := by
  refine wordList_ind (fun l => noTwoSpaces l → noTwoSpaces (substWord pat rep l)) ?_ ?_ ?_
  · intro _
    exact List.chain'_nil
  · intro c rest hw ih h
    rw [substWord_cons_word pat rep hw]
    refine List.chain'_append.mpr ⟨?_, ?_, ?_⟩
    · exact noTwoSpaces_of_all_word (substWordRun_all hrepw (runAll_of_word rest hw))
    · exact ih (h.tail.suffix (List.dropWhile_suffix _))
    · intro x hx y _ hc
      have hxw : isWordChar x = true := by
        have hall : (substWordRun pat rep (c :: rest.takeWhile isWordChar)).all isWordChar =
            true := substWordRun_all hrepw (runAll_of_word rest hw)
        rw [List.all_eq_true] at hall
        exact hall x (List.mem_of_mem_getLast? hx)
      rw [space_eq_false_of_word hxw] at hc
      exact Bool.false_ne_true hc.1
  · intro c rest hw ih h
    rw [substWord_cons_nonword pat rep hw]
    refine List.chain'_cons'.mpr ⟨?_, ih h.tail⟩
    intro y hy hc
    cases hcs : isSpaceChar c with
    | false => rw [hcs] at hc; exact Bool.false_ne_true hc.1
    | true =>
      have hys : isSpaceChar y = headSpace (substWord pat rep rest) := head?_space hy
      rw [headSpace_substWord pat rest hrep hrepw] at hys
      cases rest with
      | nil =>
        rw [substWord_nil] at hy
        cases hy
      | cons r t =>
        have hr : ¬(isSpaceChar c = true ∧ isSpaceChar r = true) :=
          (List.chain'_cons'.mp h).1 r rfl
        have hrs : isSpaceChar r = false := by
          cases h2 : isSpaceChar r with
          | false => rfl
          | true => exact absurd ⟨hcs, h2⟩ hr
        rw [headSpace_cons, hrs] at hys
        rw [hys] at hc
        exact Bool.false_ne_true hc.2

-- wordRuns equations

theorem wordRunsAux_spec :
    ∀ (l acc : Str), acc ≠ [] →
      wordRunsAux acc l =
        (acc.reverse ++ l.takeWhile isWordChar) :: wordRunsAux [] (l.dropWhile isWordChar) := by
  intro l
  induction l with
  | nil =>
    intro acc hacc
    show (if acc.isEmpty then [] else [acc.reverse]) = _
    rw [if_neg (by simpa using hacc)]
    show [acc.reverse] = (acc.reverse ++ []) :: wordRunsAux [] []
    rw [List.append_nil]
    rfl
  | cons c rest ih =>
    intro acc hacc
    show (if isWordChar c then wordRunsAux (c :: acc) rest
      else (if acc.isEmpty then [] else [acc.reverse]) ++ wordRunsAux [] rest) = _
    cases hw : isWordChar c with
    | true =>
      rw [if_pos rfl, ih (c :: acc) (List.cons_ne_nil c acc), List.takeWhile_cons,
        List.dropWhile_cons, hw, if_pos rfl, if_pos rfl, List.reverse_cons,
        List.append_assoc, List.singleton_append]
    | false =>
      rw [if_neg (by simp), if_neg (by simpa using hacc), List.takeWhile_cons,
        List.dropWhile_cons, hw, if_neg (by simp), if_neg (by simp), List.append_nil]
      have hstep : wordRunsAux [] (c :: rest) = wordRunsAux [] rest := by
        show (if isWordChar c then wordRunsAux [c] rest
          else (if (List.isEmpty ([] : Str)) then [] else [([] : Str).reverse]) ++
            wordRunsAux [] rest) = _
        rw [if_neg (by rw [hw]; simp),
          if_pos (show List.isEmpty ([] : Str) = true from rfl), List.nil_append]
      rw [hstep, List.singleton_append]

theorem wordRuns_nil : wordRuns [] = [] := rfl

theorem wordRuns_cons_word {c : Char} {rest : Str} (hw : isWordChar c = true) :
    wordRuns (c :: rest) =
      (c :: rest.takeWhile isWordChar) :: wordRuns (rest.dropWhile isWordChar) := by
  show (if isWordChar c then wordRunsAux [c] rest
    else (if (List.isEmpty ([] : Str)) then [] else [([] : Str).reverse]) ++
      wordRunsAux [] rest) = _
  rw [if_pos (by rw [hw]), wordRunsAux_spec rest [c] (List.cons_ne_nil c [])]
  rfl

theorem wordRuns_cons_nonword {c : Char} {rest : Str} (hw : isWordChar c = false) :
    wordRuns (c :: rest) = wordRuns rest := by
  show (if isWordChar c then wordRunsAux [c] rest
    else (if (List.isEmpty ([] : Str)) then [] else [([] : Str).reverse]) ++
      wordRunsAux [] rest) = _
  rw [if_neg (by rw [hw]; simp),
    if_pos (show List.isEmpty ([] : Str) = true from rfl), List.nil_append]
  rfl

theorem wordRuns_append_run {X S : Str} (hX : X ≠ []) (hXw : X.all isWordChar = true)
    (hS : S = [] ∨ ∃ d t, S = d :: t ∧ isWordChar d = false) :
    wordRuns (X ++ S) = X :: wordRuns S := by
  have htk : S.takeWhile isWordChar = [] := by
    rcases hS with rfl | ⟨d, t, rfl, hd⟩
    · rfl
    · rw [List.takeWhile_cons, hd]
      simp
  have hdp : S.dropWhile isWordChar = S := by
    rcases hS with rfl | ⟨d, t, rfl, hd⟩
    · rfl
    · rw [List.dropWhile_cons, hd]
      simp
  cases X with
  | nil => exact absurd rfl hX
  | cons x xs =>
    rw [List.all_cons, Bool.and_eq_true] at hXw
    rw [List.cons_append, wordRuns_cons_word hXw.1,
      takeWhile_append_all hXw.2 htk, dropWhile_append_all hXw.2, hdp]

theorem wordRuns_substWord (pat : Str) {rep : Str} (hrep : rep ≠ [])
    (hrepw : rep.all isWordChar = true) :
    ∀ l : Str, wordRuns (substWord pat rep l) =
      (wordRuns l).map (fun w => if w = pat then rep else w) := by
  refine wordList_ind
    (fun l => wordRuns (substWord pat rep l) =
      (wordRuns l).map (fun w => if w = pat then rep else w)) ?_ ?_ ?_
  · rfl
  · intro c rest hw ih
    rw [substWord_cons_word pat rep hw, wordRuns_cons_word hw, List.map_cons, ← ih]
    have hSshape : substWord pat rep (rest.dropWhile isWordChar) = [] ∨
        ∃ d t, substWord pat rep (rest.dropWhile isWordChar) = d :: t ∧ isWordChar d = false := by
      rcases dropWhile_head_false isWordChar rest with hT | ⟨d, t, hT, hd⟩
      · rw [hT, substWord_nil]
        exact Or.inl rfl
      · rw [hT, substWord_cons_nonword pat rep hd]
        exact Or.inr ⟨d, substWord pat rep t, rfl, hd⟩
    have hXne : substWordRun pat rep (c :: rest.takeWhile isWordChar) ≠ [] :=
      substWordRun_ne_nil hrep (List.cons_ne_nil _ _)
    have hXw : (substWordRun pat rep (c :: rest.takeWhile isWordChar)).all isWordChar = true :=
      substWordRun_all hrepw (runAll_of_word rest hw)
    rw [wordRuns_append_run hXne hXw hSshape]
    rfl
  · intro c rest hw ih
    rw [substWord_cons_nonword pat rep hw, wordRuns_cons_nonword hw,
      wordRuns_cons_nonword hw, ih]

theorem substWord_eq_self (pat rep : Str) :
    ∀ l : Str, pat ∉ wordRuns l → substWord pat rep l = l := by
  refine wordList_ind (fun l => pat ∉ wordRuns l → substWord pat rep l = l) ?_ ?_ ?_
  · intro _
    rfl
  · intro c rest hw ih h
    rw [wordRuns_cons_word hw] at h
    rw [substWord_cons_word pat rep hw, substWordRun,
      if_neg (fun he => h (by rw [← he]; exact List.mem_cons_self _ _)),
      ih (fun hm => h (List.mem_cons_of_mem _ hm)), ← word_split]
  · intro c rest hw ih h
    rw [wordRuns_cons_nonword hw] at h
    rw [substWord_cons_nonword pat rep hw, ih h]

theorem not_mem_wordRuns_substWord {q pat : Str} {rep : Str} (hrep : rep ≠ [])
    (hrepw : rep.all isWordChar = true) (hqr : q ≠ rep) {l : Str}
    (h : q ∉ wordRuns l ∨ q = pat) : q ∉ wordRuns (substWord pat rep l) := by
  rw [wordRuns_substWord pat hrep hrepw l]
  intro hmem
  obtain ⟨w, hw, hfw⟩ := List.mem_map.mp hmem
  by_cases hwp : w = pat
  · rw [if_pos hwp] at hfw
    exact hqr hfw.symm
  · rw [if_neg hwp] at hfw
    rcases h with hnm | rfl
    · exact hnm (hfw ▸ hw)
    · exact hwp hfw

-- pointwise lowercase facts lifted to the predicates

theorem keepWordSpace_eq_self {l : Str} (h : wordspace l = true) : keepWordSpace l = l := by
  rw [keepWordSpace, List.filter_eq_self]
  rw [wordspace, List.all_eq_true] at h
  exact h

theorem wordspace_map_lower {l : Str} (h : wordspace l = true) :
    wordspace (l.map lowerChar) = true := by
  rw [wordspace, List.all_map]
  rw [wordspace] at h
  rw [List.all_eq_true] at h ⊢
  intro c hc
  show isWS (lowerChar c) = true
  rw [isWS_lowerChar]
  exact h c hc

theorem spaceBlank_lowerChar {c : Char} (h : spaceBlank c = true) :
    spaceBlank (lowerChar c) = true := by
  cases hs : isSpaceChar c with
  | false =>
    rw [spaceBlank, isSpaceChar_lowerChar, hs]
    rfl
  | true =>
    rw [spaceBlank, hs] at h
    have hc : c = ' ' := by simpa using h
    rw [hc]
    decide

theorem allBlank_map_lower {l : Str} (h : allBlank l = true) :
    allBlank (l.map lowerChar) = true := by
  rw [allBlank, List.all_map]
  rw [allBlank] at h
  rw [List.all_eq_true] at h ⊢
  intro c hc
  exact spaceBlank_lowerChar (h c hc)

theorem noTwoSpaces_map_lower {l : Str} (h : noTwoSpaces l) :
    noTwoSpaces (l.map lowerChar) := by
  rw [noTwoSpaces, List.chain'_map]
  exact h.imp (fun a b hab hc =>
    hab ⟨(isSpaceChar_lowerChar a) ▸ hc.1, (isSpaceChar_lowerChar b) ▸ hc.2⟩)

theorem noTwoSpaces_reverse {l : Str} (h : noTwoSpaces l) : noTwoSpaces l.reverse := by
  rw [noTwoSpaces, List.chain'_reverse]
  exact h.imp (fun a b hab hc => hab ⟨hc.2, hc.1⟩)

theorem noTwoSpaces_stripChars {l : Str} (h : noTwoSpaces l) : noTwoSpaces (stripChars l) := by
  have h1 : noTwoSpaces (l.dropWhile isSpaceChar) :=
    List.Chain'.suffix h (List.dropWhile_suffix _)
  have h2 := noTwoSpaces_reverse h1
  have h3 : noTwoSpaces ((l.dropWhile isSpaceChar).reverse.dropWhile isSpaceChar) :=
    List.Chain'.suffix h2 (List.dropWhile_suffix _)
  exact noTwoSpaces_reverse h3

-- the canonical-form fixed point of normalize_name

theorem canonicalStr_nil : canonicalStr [] := ⟨rfl, rfl, rfl, List.chain'_nil, rfl⟩

theorem normalize_name_fix {u : Str} (h : canonicalStr u) : normalize_name u = u := by
  obtain ⟨hws, hlo, hst, hch, hbl⟩ := h
  rw [normalize_name]
  cases he : u.isEmpty with
  | true =>
    rw [if_pos rfl]
    exact (List.isEmpty_iff.mp he).symm
  | false =>
    rw [if_neg (by simp), map_lowerChar_eq_self hlo, stripChars_eq_self hst,
      keepWordSpace_eq_self hws, collapseWS_eq_self hch hbl]

theorem normalize_name_wordspace (s : Str) : wordspace (normalize_name s) = true := by
  rw [normalize_name]
  cases he : s.isEmpty with
  | true => rw [if_pos rfl]; rfl
  | false =>
    rw [if_neg (by simp), wordspace, List.all_eq_true]
    intro c hc
    rcases collapseWS_mem hc with ⟨hm, _⟩ | rfl
    · exact (List.mem_filter.mp hm).2
    · decide

theorem normalize_name_canonical {t : Str} (ht : wordspace t = true) :
    canonicalStr (normalize_name t) := by
  rw [normalize_name]
  cases he : t.isEmpty with
  | true => rw [if_pos rfl]; exact canonicalStr_nil
  | false =>
    rw [if_neg (by simp)]
    have hwsX : wordspace (stripChars (t.map lowerChar)) = true :=
      all_stripChars (wordspace_map_lower ht)
    rw [keepWordSpace_eq_self hwsX]
    refine ⟨?_, ?_, ?_, noTwoSpaces_collapseWS _, allBlank_collapseWS _⟩
    · rw [wordspace, List.all_eq_true]
      intro c hc
      rcases collapseWS_mem hc with ⟨hm, _⟩ | rfl
      · exact List.all_eq_true.mp hwsX c hm
      · decide
    · rw [allLower, List.all_eq_true]
      intro c hc
      rcases collapseWS_mem hc with ⟨hm, _⟩ | rfl
      · exact List.all_eq_true.mp (allLower_map t) c (mem_stripChars hm)
      · decide
    · rw [stripped_iff, headSpace_collapseWS, lastSpace_collapseWS]
      exact stripped_iff.mp (stripped_stripChars (t.map lowerChar))

theorem normalize_name_stable (s : Str) :
    normalize_name (normalize_name (normalize_name s)) =
      normalize_name (normalize_name s) :=
  normalize_name_fix (normalize_name_canonical (normalize_name_wordspace s))

-- the canonical-form fixed point of normalize_address

theorem applyAbbrevs_unfold (l : Str) :
    applyAbbrevs l =
      substWord "drive".toList "dr".toList
        (substWord "road".toList "rd".toList
          (substWord "place".toList "pl".toList
            (substWord "boulevard".toList "blvd".toList
              (substWord "avenue".toList "ave".toList
                (substWord "street".toList "st".toList l))))) := rfl

theorem canonicalStr_substWord (pat : Str) {rep : Str} (hrep : rep ≠ [])
    (hrepw : rep.all isWordChar = true) (hrepl : allLower rep = true) {l : Str}
    (h : canonicalStr l) : canonicalStr (substWord pat rep l) := by
  obtain ⟨hws, hlo, hst, hch, hbl⟩ := h
  refine ⟨?_, ?_, ?_, noTwoSpaces_substWord pat hrep hrepw l hch, ?_⟩
  · refine all_substWord pat hws ?_
    rw [List.all_eq_true] at hrepw ⊢
    exact fun c hc => isWS_of_word (hrepw c hc)
  · exact all_substWord pat hlo hrepl
  · rw [stripped_iff] at hst ⊢
    rw [headSpace_substWord pat l hrep hrepw, lastSpace_substWord pat hrep hrepw l]
    exact hst
  · refine all_substWord pat hbl ?_
    rw [List.all_eq_true] at hrepw ⊢
    exact fun c hc => spaceBlank_of_word (hrepw c hc)

theorem canonicalStr_applyAbbrevs {l : Str} (h : canonicalStr l) :
    canonicalStr (applyAbbrevs l) := by
  rw [applyAbbrevs_unfold]
  exact canonicalStr_substWord _ (by decide) (by decide) (by decide)
    (canonicalStr_substWord _ (by decide) (by decide) (by decide)
      (canonicalStr_substWord _ (by decide) (by decide) (by decide)
        (canonicalStr_substWord _ (by decide) (by decide) (by decide)
          (canonicalStr_substWord _ (by decide) (by decide) (by decide)
            (canonicalStr_substWord _ (by decide) (by decide) (by decide) h)))))

theorem applyAbbrevs_no_targets (l : Str) :
    ∀ pr ∈ streetAbbrevs, pr.1 ∉ wordRuns (applyAbbrevs l) := by
  intro pr hpr
  rw [applyAbbrevs_unfold]
  simp only [streetAbbrevs, List.mem_cons, List.not_mem_nil, or_false] at hpr
  rcases hpr with rfl | rfl | rfl | rfl | rfl | rfl
  · refine not_mem_wordRuns_substWord (by decide) (by decide) (by decide) (Or.inl ?_)
    refine not_mem_wordRuns_substWord (by decide) (by decide) (by decide) (Or.inl ?_)
    refine not_mem_wordRuns_substWord (by decide) (by decide) (by decide) (Or.inl ?_)
    refine not_mem_wordRuns_substWord (by decide) (by decide) (by decide) (Or.inl ?_)
    refine not_mem_wordRuns_substWord (by decide) (by decide) (by decide) (Or.inl ?_)
    exact not_mem_wordRuns_substWord (by decide) (by decide) (by decide) (Or.inr rfl)
  · refine not_mem_wordRuns_substWord (by decide) (by decide) (by decide) (Or.inl ?_)
    refine not_mem_wordRuns_substWord (by decide) (by decide) (by decide) (Or.inl ?_)
    refine not_mem_wordRuns_substWord (by decide) (by decide) (by decide) (Or.inl ?_)
    refine not_mem_wordRuns_substWord (by decide) (by decide) (by decide) (Or.inl ?_)
    exact not_mem_wordRuns_substWord (by decide) (by decide) (by decide) (Or.inr rfl)
  · refine not_mem_wordRuns_substWord (by decide) (by decide) (by decide) (Or.inl ?_)
    refine not_mem_wordRuns_substWord (by decide) (by decide) (by decide) (Or.inl ?_)
    refine not_mem_wordRuns_substWord (by decide) (by decide) (by decide) (Or.inl ?_)
    exact not_mem_wordRuns_substWord (by decide) (by decide) (by decide) (Or.inr rfl)
  · refine not_mem_wordRuns_substWord (by decide) (by decide) (by decide) (Or.inl ?_)
    refine not_mem_wordRuns_substWord (by decide) (by decide) (by decide) (Or.inl ?_)
    exact not_mem_wordRuns_substWord (by decide) (by decide) (by decide) (Or.inr rfl)
  · refine not_mem_wordRuns_substWord (by decide) (by decide) (by decide) (Or.inl ?_)
    exact not_mem_wordRuns_substWord (by decide) (by decide) (by decide) (Or.inr rfl)
  · exact not_mem_wordRuns_substWord (by decide) (by decide) (by decide) (Or.inr rfl)

theorem normalize_address_fix {u : Str} (h : canonicalAddr u) : normalize_address u = u := by
  obtain ⟨⟨hws, hlo, hst, hch, hbl⟩, htg⟩ := h
  rw [normalize_address]
  cases he : u.isEmpty with
  | true =>
    rw [if_pos rfl]
    exact (List.isEmpty_iff.mp he).symm
  | false =>
    rw [if_neg (by simp), map_lowerChar_eq_self hlo, stripChars_eq_self hst]
    have habb : applyAbbrevs u = u := by
      rw [applyAbbrevs_unfold,
        substWord_eq_self "street".toList "st".toList u
          (htg ("street".toList, "st".toList) (by decide)),
        substWord_eq_self "avenue".toList "ave".toList u
          (htg ("avenue".toList, "ave".toList) (by decide)),
        substWord_eq_self "boulevard".toList "blvd".toList u
          (htg ("boulevard".toList, "blvd".toList) (by decide)),
        substWord_eq_self "place".toList "pl".toList u
          (htg ("place".toList, "pl".toList) (by decide)),
        substWord_eq_self "road".toList "rd".toList u
          (htg ("road".toList, "rd".toList) (by decide)),
        substWord_eq_self "drive".toList "dr".toList u
          (htg ("drive".toList, "dr".toList) (by decide))]
    rw [habb, keepWordSpace_eq_self hws, collapseWS_eq_self hch hbl]

theorem normalize_address_canonical {t : Str} (ht : wordspace t = true) (ht2 : noTwoSpaces t)
    (ht3 : allBlank t = true) : canonicalAddr (normalize_address t) := by
  rw [normalize_address]
  cases he : t.isEmpty with
  | true =>
    rw [if_pos rfl]
    exact ⟨canonicalStr_nil, fun pr _ hm => by cases hm⟩
  | false =>
    rw [if_neg (by simp)]
    have hX : canonicalStr (stripChars (t.map lowerChar)) :=
      ⟨all_stripChars (wordspace_map_lower ht), all_stripChars (allLower_map t),
        stripped_stripChars _, noTwoSpaces_stripChars (noTwoSpaces_map_lower ht2),
        all_stripChars (allBlank_map_lower ht3)⟩
    have hA : canonicalStr (applyAbbrevs (stripChars (t.map lowerChar))) :=
      canonicalStr_applyAbbrevs hX
    rw [keepWordSpace_eq_self hA.1, collapseWS_eq_self hA.2.2.2.1 hA.2.2.2.2]
    exact ⟨hA, applyAbbrevs_no_targets _⟩

theorem normalize_address_wordspace (s : Str) : wordspace (normalize_address s) = true := by
  rw [normalize_address]
  cases he : s.isEmpty with
  | true => rw [if_pos rfl]; rfl
  | false =>
    rw [if_neg (by simp), wordspace, List.all_eq_true]
    intro c hc
    rcases collapseWS_mem hc with ⟨hm, _⟩ | rfl
    · exact (List.mem_filter.mp hm).2
    · decide

theorem normalize_address_shape (s : Str) :
    noTwoSpaces (normalize_address s) ∧ allBlank (normalize_address s) = true := by
  rw [normalize_address]
  cases he : s.isEmpty with
  | true => rw [if_pos rfl]; exact ⟨List.chain'_nil, rfl⟩
  | false => rw [if_neg (by simp)]; exact ⟨noTwoSpaces_collapseWS _, allBlank_collapseWS _⟩

theorem normalize_address_stable (s : Str) :
    normalize_address (normalize_address (normalize_address s)) =
      normalize_address (normalize_address s) :=
  normalize_address_fix (normalize_address_canonical (normalize_address_wordspace s)
    (normalize_address_shape s).1 (normalize_address_shape s).2)

/-- C7: the claimed one-pass idempotence of the normalizers fails, but the
amended property holds: for every string s the twice-normalized text is a
fixed point of the normalizer, both for normalize_name and for
normalize_address, so a third application changes nothing. -/
theorem normalizers_stabilize_after_two_passes (s : Str) :
    normalize_name (normalize_name (normalize_name s)) =
      normalize_name (normalize_name s) ∧
    normalize_address (normalize_address (normalize_address s)) =
      normalize_address (normalize_address s) :=
  ⟨normalize_name_stable s, normalize_address_stable s⟩
